import Mathlib

/-!
Verification development for the stack-map subsystem of lib/CodeGen/StackMaps.cpp:
the writer (operand parsing, live-out coalescing, constant-pool interning,
serialization of the stack-map section) and the reader (parsing the binary
section back into records).  C++ integers are modelled as Nat / Int with
explicit reductions modulo 2^w where machine truncation matters; fallible
code (assert failures, out-of-bounds iterator dereferences, llvm_unreachable)
is modelled as Option with none for the aborting paths.
-/

namespace StackMapsModel

/-! ## Byte-level primitives (reader side) -/

/-- Little-endian reinterpretation of `n` bytes of `data` starting at `offset`,
as performed by the `*(Primitive*)(data + offset)` cast in `parse_primitive`
on a little-endian host.  Bytes past the end of the buffer read as 0 (such a
read never happens under the bounds preconditions proved below). -/
def readLE (data : List Nat) (offset : Nat) : Nat → Nat
  | 0 => 0
  | n + 1 => data.getD offset 0 + 256 * readLE data (offset + 1) n

/-- uint64_t cast of an int64_t value. -/
def toU64 (x : Int) : Nat := (x % (2 ^ 64 : Int)).toNat

/-- int32_t reinterpretation of a 32-bit little-endian quantity. -/
def toInt32 (v : Nat) : Int := if v < 2 ^ 31 then (v : Int) else (v : Int) - 2 ^ 32

/-- llvm isInt\<32\>: the int64_t value fits in a signed 32-bit field. -/
def isInt32 (x : Int) : Prop := -2147483648 ≤ x ∧ x < 2147483648

instance (x : Int) : Decidable (isInt32 x) := by unfold isInt32; infer_instance

/-- Model of `template <typename Primitive> Primitive parse_primitive(uint8_t*
data, unsigned& offset, const unsigned len)` for a primitive of `size` bytes.
The function asserts `offset < len` before the read, copies `sizeof` bytes at
`offset` (little-endian reinterpretation), advances `offset` by `sizeof`, and
asserts `offset <= len` afterwards; a failed assertion is `none`.  The leading
`assert(data && offset >= 0 && len >= 0)` is vacuous in the Nat model. -/
def parse_primitive (size : Nat) (data : List Nat) (offset len : Nat) :
    Option (Nat × Nat) :=
  if offset < len then
    let rval := readLE data offset size
    let offset' := offset + size
    if offset' ≤ len then some (rval, offset') else none
  else none

/-! ## Reader data model

The reader-side record types live in the (missing) header StackMaps.h; their
fields are exactly the ones read by the parse routines in StackMaps.cpp.
The C++ field `Type` of `LocationRecord` is spelled `Ty` here because `Type`
is reserved in Lean. -/

structure LocationRecord where
  Ty : Nat
  SizeInBytes : Nat
  DwarfRegNum : Nat
  Offset : Int
deriving DecidableEq, Repr, Inhabited

structure StackMapSizeRecord where
  FunctionAddr : Nat
  StackSize : Nat
deriving DecidableEq, Repr, Inhabited

structure StackMapRecord where
  PatchPointID : Nat
  InstructionOffset : Nat
  ReservedFlags : Nat
  Locations : List LocationRecord
deriving DecidableEq, Repr, Inhabited

structure StackMapSection where
  Version : Nat
  Reserved8 : Nat
  Reserved16 : Nat
  FnSizeRecords : List StackMapSizeRecord
  Constants : List Nat
  Records : List StackMapRecord
deriving DecidableEq, Repr, Inhabited

/-- Model of `LocationRecord::parse`: assert `offset + sizeof(LocationRecord)
<= len`, memcpy the 8 fixed bytes (u8 Type, u8 SizeInBytes, u16 DwarfRegNum,
i32 Offset, little-endian, no struct padding), advance offset by 8, and
assert `Type <= 5`. -/
def LocationRecord.parse (data : List Nat) (offset len : Nat) :
    Option (LocationRecord × Nat) :=
  if offset + 8 ≤ len then
    let rec' : LocationRecord :=
      { Ty := data.getD offset 0
        SizeInBytes := data.getD (offset + 1) 0
        DwarfRegNum := readLE data (offset + 2) 2
        Offset := toInt32 (readLE data (offset + 4) 4) }
    if rec'.Ty ≤ 5 then some (rec', offset + 8) else none
  else none

/-- The `for (uint16_t i = 0; i < NumLocations; i++) Locations[i].parse(...)`
loop in `StackMapRecord::parse`. -/
def parseLocations : Nat → List Nat → Nat → Nat → Option (List LocationRecord × Nat)
  | 0, _, offset, _ => some ([], offset)
  | n + 1, data, offset, len => do
    let (loc, o1) ← LocationRecord.parse data offset len
    let (locs, o2) ← parseLocations n data o1 len
    some (loc :: locs, o2)

/-- Model of `StackMapRecord::parse`: id u64, pc-offset u32, flags u16
(asserted 0), num-locations u16 followed by that many location records, a
u16 padding (asserted 0) and a u16 live-out count (asserted 0, live-out
parsing being unimplemented); finally the offset is advanced to the next
8-byte boundary when it is not already aligned. -/
def StackMapRecord.parse (data : List Nat) (offset len : Nat) :
    Option (StackMapRecord × Nat) := do
  let (id, o1) ← parse_primitive 8 data offset len
  let (instrOff, o2) ← parse_primitive 4 data o1 len
  let (flags, o3) ← parse_primitive 2 data o2 len
  let (numLocations, o4) ← parse_primitive 2 data o3 len
  if flags ≠ 0 then none else do
  let (locs, o5) ← parseLocations numLocations data o4 len
  let (pad16, o6) ← parse_primitive 2 data o5 len
  if pad16 ≠ 0 then none else do
  let (numLiveOuts, o7) ← parse_primitive 2 data o6 len
  if numLiveOuts ≠ 0 then none else
  let o8 := if o7 % 8 ≠ 0 then o7 + (8 - o7 % 8) else o7
  some ({ PatchPointID := id, InstructionOffset := instrOff,
          ReservedFlags := flags, Locations := locs }, o8)

/-- The function-record loop of `StackMapSection::parse`: each record is read
as a u64 `Addr` followed by a u64 `Size`. -/
def parseFnRecords : Nat → List Nat → Nat → Nat → Option (List StackMapSizeRecord × Nat)
  | 0, _, offset, _ => some ([], offset)
  | n + 1, data, offset, len => do
    let (addr, o1) ← parse_primitive 8 data offset len
    let (size, o2) ← parse_primitive 8 data o1 len
    let (rest, o3) ← parseFnRecords n data o2 len
    some (⟨addr, size⟩ :: rest, o3)

/-- The constant-pool loop of `StackMapSection::parse`: u64 values. -/
def parseConstants : Nat → List Nat → Nat → Nat → Option (List Nat × Nat)
  | 0, _, offset, _ => some ([], offset)
  | n + 1, data, offset, len => do
    let (c, o1) ← parse_primitive 8 data offset len
    let (rest, o2) ← parseConstants n data o1 len
    some (c :: rest, o2)

/-- The stack-map-record loop of `StackMapSection::parse`. -/
def parseRecords : Nat → List Nat → Nat → Nat → Option (List StackMapRecord × Nat)
  | 0, _, offset, _ => some ([], offset)
  | n + 1, data, offset, len => do
    let (r, o1) ← StackMapRecord.parse data offset len
    let (rest, o2) ← parseRecords n data o1 len
    some (r :: rest, o2)

/-- Model of `StackMapSection::parse`: header (u8 version asserted 1, u8 and
u16 reserved asserted 0), the three u32 counts, then the function records,
constants and stack-map records. -/
def StackMapSection.parse (data : List Nat) (offset len : Nat) :
    Option (StackMapSection × Nat) := do
  let (ver, o1) ← parse_primitive 1 data offset len
  let (r8, o2) ← parse_primitive 1 data o1 len
  let (r16, o3) ← parse_primitive 2 data o2 len
  if ver ≠ 1 ∨ r8 ≠ 0 ∨ r16 ≠ 0 then none else do
  let (numFuncs, o4) ← parse_primitive 4 data o3 len
  let (numConstants, o5) ← parse_primitive 4 data o4 len
  let (numRecords, o6) ← parse_primitive 4 data o5 len
  let (fns, o7) ← parseFnRecords numFuncs data o6 len
  let (consts, o8) ← parseConstants numConstants data o7 len
  let (recs, o9) ← parseRecords numRecords data o8 len
  some ({ Version := ver, Reserved8 := r8, Reserved16 := r16,
          FnSizeRecords := fns, Constants := consts, Records := recs }, o9)

/-! ## Writer data model

`StackMaps::Location`, `StackMaps::LiveOutReg` and the tag constants live in
the header StackMaps.h, which is not part of the source tree; the structures
below are modelled from the spec (§3): a Location has a kind, a spill size,
a DWARF register number and a signed 64-bit offset, and a LiveOutReg carries
the physical register, the DWARF number, the spill size and a validity flag
used only during the merge pass (`MarkInvalid` / `IsInvalid`). -/

inductive LocationKind where
  | Unprocessed
  | Register
  | Direct
  | Indirect
  | Constant
  | ConstantIndex
deriving DecidableEq, Repr, Inhabited

/-- The numeric encoding of a location kind used by the serializer
(0x1 Register, 0x2 Direct, 0x3 Indirect, 0x4 Constant, 0x5 ConstantIndex). -/
def LocationKind.enc : LocationKind → Nat
  | .Unprocessed => 0
  | .Register => 1
  | .Direct => 2
  | .Indirect => 3
  | .Constant => 4
  | .ConstantIndex => 5

structure Location where
  LocType : LocationKind
  Size : Nat
  Reg : Nat
  Offset : Int
deriving DecidableEq, Repr, Inhabited

structure LiveOutReg where
  Reg : Nat
  RegNo : Nat
  Size : Nat
  valid : Bool := true
deriving DecidableEq, Repr, Inhabited

/-- Modelled from the spec: `LiveOutReg::MarkInvalid` (StackMaps.h is not in
the source tree); the validity flag is used only during the merge pass. -/
def markInvalid (lo : LiveOutReg) : LiveOutReg := { lo with valid := false }

/-- One call-site record: the deferred pc-offset expression (modelled as an
identifier for the MCExpr `label − fn_entry`), the 64-bit ID, the location
vector and the merged live-out vector. -/
structure CallSiteInfo where
  CSOffsetExpr : Nat
  ID : Nat
  Locations : List Location
  LiveOuts : List LiveOutReg
deriving DecidableEq, Repr, Inhabited

/-- The writer state: the call-site list `CSInfos`, the insertion-ordered
constant pool `ConstPool` (a MapVector whose keys equal its values at the
only insertion site, hence a list of u64 values), and the function frame
table `FnStackSize` (a MapVector from function symbol to u64 stack size,
symbols modelled as identifiers). -/
structure StackMapsState where
  CSInfos : List CallSiteInfo
  ConstPool : List Nat
  FnStackSize : List (Nat × Nat)
deriving DecidableEq, Repr, Inhabited

/-- The abstract TargetRegisterInfo interface consumed by the writer
(an external collaborator, §6 of the spec): raw DWARF numbers (negative when
absent), the super-register chain iterator, minimal-class spill sizes,
the super-register predicate, the register count, and the sub-register
queries used for the Register location path. -/
structure TRI where
  dwarfRegNum : Nat → Int
  superRegs : Nat → List Nat
  classSize : Nat → Nat
  isSuperRegister : Nat → Nat → Bool
  NumRegs : Nat
  llvmRegNum : Nat → Nat
  subRegIndex : Nat → Nat → Nat
  subRegIdxOffset : Nat → Nat

/-- The walk of `static unsigned getDwarfRegNum(unsigned Reg, const
TargetRegisterInfo *TRI)`: take the raw DWARF number and, while it is
negative, continue along the super-register iterator. -/
def dwarfWalk (tri : TRI) (r : Int) : List Nat → Int
  | [] => r
  | s :: ss => if r < 0 then dwarfWalk tri (tri.dwarfRegNum s) ss else r

/-- Model of the file-static `getDwarfRegNum` helper: walk the super-register
chain until a valid DWARF number is found; the final `(unsigned)` cast of the
asserted-nonnegative result is `Int.toNat`. -/
def getDwarfRegNum (tri : TRI) (Reg : Nat) : Nat :=
  (dwarfWalk tri (tri.dwarfRegNum Reg) (tri.superRegs Reg)).toNat

/-- Model of `StackMaps::createLiveOutReg`. -/
def createLiveOutReg (tri : TRI) (Reg : Nat) : LiveOutReg :=
  { Reg := Reg, RegNo := getDwarfRegNum tri Reg, Size := tri.classSize Reg }

/-- The bit test `(Mask[Reg / 32] >> Reg % 32) & 1` on the live-out register
mask, an array of 32-bit words. -/
def maskTest (Mask : List Nat) (Reg : Nat) : Bool :=
  (Mask.getD (Reg / 32) 0 >>> (Reg % 32)) % 2 == 1

/-- Modelled from the spec: `LiveOutReg::operator<` of StackMaps.h compares
the DWARF register numbers, so `std::sort` orders candidates by `RegNo`. -/
def liveOutLE (a b : LiveOutReg) : Prop := a.RegNo ≤ b.RegNo

instance : DecidableRel liveOutLE := fun a b => Nat.decLe a.RegNo b.RegNo

instance : IsTotal LiveOutReg liveOutLE := ⟨fun a b => Nat.le_total a.RegNo b.RegNo⟩

instance : IsTrans LiveOutReg liveOutLE := ⟨fun _ _ _ => Nat.le_trans⟩

/-- The body of the merge pass in `parseRegisterLiveOutMask`: the surviving
entry `*I` absorbs `*II` by taking the maximum size, and its physical
register is replaced when `*II` holds a super-register of it.  The size is
updated first, exactly as in the source; neither update touches `RegNo` or
the validity flag. -/
def mergeStep (tri : TRI) (s b : LiveOutReg) : LiveOutReg :=
  { s with Size := max s.Size b.Size,
           Reg := if tri.isSuperRegister s.Reg b.Reg then b.Reg else s.Reg }

/-- The inner loop (`II`) of the merge pass, on the vector `l` with the
outer iterator at index `i` and the inner iterator at index `j`:
while `II != E`, a differing DWARF number breaks out (the outer loop resumes
at `j` after `I = --II; break;` and the following `++I`), and an equal DWARF
number merges `*II` into `*I` and marks `*II` invalid; when the inner loop
exhausts the vector the outer iterator just advances by one. -/
def coalesceInner (tri : TRI) (l : List LiveOutReg) (i j : Nat) :
    List LiveOutReg × Nat :=
  if h : j < l.length then
    if (l.getD i default).RegNo ≠ (l.getD j default).RegNo then
      (l, j)
    else
      let a := l.getD i default
      let b := l.getD j default
      coalesceInner tri ((l.set i (mergeStep tri a b)).set j (markInvalid b)) i (j + 1)
  else (l, i + 1)
termination_by l.length - j
decreasing_by simp only [List.length_set]; omega

theorem coalesceInner_length_aux (tri : TRI) (i : Nat) :
    ∀ (fuel : Nat) (l : List LiveOutReg) (j : Nat), l.length ≤ j + fuel →
      (coalesceInner tri l i j).1.length = l.length := by
  intro fuel
  induction fuel with
  | zero =>
    intro l j h
    rw [coalesceInner, dif_neg (by omega)]
  | succ n ih =>
    intro l j h
    rw [coalesceInner]
    by_cases hj : j < l.length
    · rw [dif_pos hj]
      by_cases hne : (l.getD i default).RegNo ≠ (l.getD j default).RegNo
      · rw [if_pos hne]
      · rw [if_neg hne]
        have hlen : (((l.set i (mergeStep tri (l.getD i default) (l.getD j default))).set j
            (markInvalid (l.getD j default)))).length = l.length := by
          simp [List.length_set]
        rw [ih _ (j + 1) (by rw [hlen]; omega), hlen]
    · rw [dif_neg hj]

theorem coalesceInner_length (tri : TRI) (l : List LiveOutReg) (i j : Nat) :
    (coalesceInner tri l i j).1.length = l.length :=
  coalesceInner_length_aux tri i l.length l j (by omega)

theorem coalesceInner_lt_aux (tri : TRI) (i : Nat) :
    ∀ (fuel : Nat) (l : List LiveOutReg) (j : Nat), l.length ≤ j + fuel → i < j →
      i < (coalesceInner tri l i j).2 := by
  intro fuel
  induction fuel with
  | zero =>
    intro l j h hij
    rw [coalesceInner, dif_neg (by omega)]
    exact Nat.lt_succ_self i
  | succ n ih =>
    intro l j h hij
    rw [coalesceInner]
    by_cases hj : j < l.length
    · rw [dif_pos hj]
      by_cases hne : (l.getD i default).RegNo ≠ (l.getD j default).RegNo
      · rw [if_pos hne]; exact hij
      · rw [if_neg hne]
        exact ih _ (j + 1) (by simp [List.length_set]; omega) (Nat.lt_succ_of_lt hij)
    · rw [dif_neg hj]; exact Nat.lt_succ_self i

theorem coalesceInner_lt (tri : TRI) (l : List LiveOutReg) (i j : Nat)
    (hij : i < j) : i < (coalesceInner tri l i j).2 :=
  coalesceInner_lt_aux tri i l.length l j (by omega) hij

/-- The outer loop (`I`) of the merge pass. -/
def coalesceOuter (tri : TRI) (l : List LiveOutReg) (i : Nat) : List LiveOutReg :=
  if h : i < l.length then
    let p := coalesceInner tri l i (i + 1)
    coalesceOuter tri p.1 p.2
  else l
termination_by l.length - i
decreasing_by
  have h1 := coalesceInner_length tri l i (i + 1)
  have h2 := coalesceInner_lt tri l i (i + 1) (Nat.lt_succ_self i)
  omega

/-- Model of `StackMaps::parseRegisterLiveOutMask`: create a candidate
`LiveOutReg` for each bit set in the mask (registers `0 ≤ Reg < NumRegs` in
increasing order), sort by DWARF number (`std::sort` with
`LiveOutReg::operator<`, realized as insertion sort), run the merge pass,
and erase the entries marked invalid (`remove_if(IsInvalid)`). -/
def parseRegisterLiveOutMask (tri : TRI) (Mask : List Nat) : List LiveOutReg :=
  let LiveOuts := ((List.range tri.NumRegs).filter fun Reg => maskTest Mask Reg).map
    (createLiveOutReg tri)
  let sorted := LiveOuts.insertionSort liveOutLE
  let merged := coalesceOuter tri sorted 0
  merged.filter fun lo => lo.valid

/-! ## Operand parsing (writer side) -/

/-- A machine operand, the narrow interface consumed by `parseOperand`:
an immediate, a (physical) register operand with its def/implicit flags and
sub-register index, or a register-live-out mask. -/
inductive MachineOperand where
  | Imm (v : Int)
  | Reg (r : Nat) (isDef : Bool) (isImplicit : Bool) (subReg : Nat)
  | RegLiveOut (mask : List Nat)
deriving DecidableEq, Repr, Inhabited

/-- Modelled from the spec: the meta-operand tag values `DirectMemRefOp`,
`IndirectMemRefOp` and `ConstantOp` are defined in StackMaps.h (not in the
source tree); only their distinctness matters to the parser. -/
def DirectMemRefOp : Int := 1

def IndirectMemRefOp : Int := 2

def ConstantOp : Int := 4

/-- Modelled from the spec: `TargetRegisterInfo::isPhysicalRegister` —
physical registers are the nonzero identifiers below the virtual-register
range. -/
def isPhysicalRegister (r : Nat) : Bool := decide (0 < r ∧ r < 2 ^ 30)

/-- Model of `StackMaps::parseOperand`.  The iterator pair is a list of
operands with the current index `i` (the end iterator plays no role in the
body, which never compares against it); the result is the updated location
and live-out vectors together with the advanced index.  Dereferencing past
the end of the operand list, `llvm_unreachable` on an unrecognized immediate
tag and the failed assertions are all `none`. -/
def parseOperand (tri : TRI) (ptrSizeBits : Nat) (ops : List MachineOperand)
    (i : Nat) (Locs : List Location) (LiveOuts : List LiveOutReg) :
    Option (List Location × List LiveOutReg × Nat) :=
  match ops.get? i with
  | none => none
  | some (MachineOperand.Imm v) =>
    if v = DirectMemRefOp then
      if ptrSizeBits % 8 = 0 then
        let Size := ptrSizeBits / 8
        match ops.get? (i + 1), ops.get? (i + 2) with
        | some (MachineOperand.Reg Reg _ _ _), some (MachineOperand.Imm Imm) =>
          some (Locs ++ [⟨LocationKind.Direct, Size, getDwarfRegNum tri Reg, Imm⟩],
                LiveOuts, i + 3)
        | _, _ => none
      else none
    else if v = IndirectMemRefOp then
      match ops.get? (i + 1), ops.get? (i + 2), ops.get? (i + 3) with
      | some (MachineOperand.Imm Size), some (MachineOperand.Reg Reg _ _ _),
        some (MachineOperand.Imm Imm) =>
        if Size > 0 then
          some (Locs ++ [⟨LocationKind.Indirect, Size.toNat, getDwarfRegNum tri Reg, Imm⟩],
                LiveOuts, i + 4)
        else none
      | _, _, _ => none
    else if v = ConstantOp then
      match ops.get? (i + 1) with
      | some (MachineOperand.Imm Imm) =>
        some (Locs ++ [⟨LocationKind.Constant, 8, 0, Imm⟩], LiveOuts, i + 2)
      | _ => none
    else none
  | some (MachineOperand.Reg r _ isImplicit subReg) =>
    if isImplicit then some (Locs, LiveOuts, i + 1)
    else if isPhysicalRegister r then
      if subReg = 0 then
        let RegNo := getDwarfRegNum tri r
        let LLVMRegNo := tri.llvmRegNum RegNo
        let SubRegIdx := tri.subRegIndex LLVMRegNo r
        let Offset : Nat := if SubRegIdx ≠ 0 then tri.subRegIdxOffset SubRegIdx else 0
        some (Locs ++ [⟨LocationKind.Register, tri.classSize r, RegNo, (Offset : Int)⟩],
              LiveOuts, i + 1)
      else none
    else none
  | some (MachineOperand.RegLiveOut mask) =>
    some (Locs, parseRegisterLiveOutMask tri mask, i + 1)

theorem parseOperand_advances (tri : TRI) (ptrSizeBits : Nat)
    (ops : List MachineOperand) (i : Nat) (Locs : List Location)
    (LiveOuts : List LiveOutReg) (res : List Location × List LiveOutReg × Nat)
    (h : parseOperand tri ptrSizeBits ops i Locs LiveOuts = some res) :
    i < ops.length ∧ i < res.2.2 ∧ res.2.2 ≤ ops.length := by
  rw [parseOperand] at h
  split at h
  · exact absurd h (by simp)
  · rename_i v hop
    obtain ⟨hi, -⟩ := List.get?_eq_some.mp hop
    by_cases h1 : v = DirectMemRefOp
    · rw [if_pos h1] at h
      by_cases h2 : ptrSizeBits % 8 = 0
      · rw [if_pos h2] at h
        split at h
        · rename_i Reg d2 i2 s2 Imm heq1 heq2
          obtain ⟨h3, -⟩ := List.get?_eq_some.mp heq2
          injection h with h
          subst h
          exact ⟨hi, by show i < i + 3; omega, by show i + 3 ≤ ops.length; omega⟩
        · exact absurd h (by simp)
      · rw [if_neg h2] at h
        exact absurd h (by simp)
    · rw [if_neg h1] at h
      by_cases h2 : v = IndirectMemRefOp
      · rw [if_pos h2] at h
        split at h
        · rename_i Size Reg d2 i2 s2 Imm heq1 heq2 heq3
          obtain ⟨h3, -⟩ := List.get?_eq_some.mp heq3
          split at h
          · injection h with h
            subst h
            exact ⟨hi, by show i < i + 4; omega, by show i + 4 ≤ ops.length; omega⟩
          · exact absurd h (by simp)
        · exact absurd h (by simp)
      · rw [if_neg h2] at h
        by_cases h3 : v = ConstantOp
        · rw [if_pos h3] at h
          split at h
          · rename_i Imm heq1
            obtain ⟨h4, -⟩ := List.get?_eq_some.mp heq1
            injection h with h
            subst h
            exact ⟨hi, by show i < i + 2; omega, by show i + 2 ≤ ops.length; omega⟩
          · exact absurd h (by simp)
        · rw [if_neg h3] at h
          exact absurd h (by simp)
  · rename_i r d impl sub hop
    obtain ⟨hi, -⟩ := List.get?_eq_some.mp hop
    by_cases h1 : impl = true
    · rw [if_pos h1] at h
      injection h with h
      subst h
      exact ⟨hi, by show i < i + 1; omega, by show i + 1 ≤ ops.length; omega⟩
    · rw [if_neg h1] at h
      by_cases h2 : isPhysicalRegister r = true
      · rw [if_pos h2] at h
        by_cases h3 : sub = 0
        · rw [if_pos h3] at h
          injection h with h
          subst h
          exact ⟨hi, by show i < i + 1; omega, by show i + 1 ≤ ops.length; omega⟩
        · rw [if_neg h3] at h
          exact absurd h (by simp)
      · rw [if_neg h2] at h
        exact absurd h (by simp)
  · rename_i mask hop
    obtain ⟨hi, -⟩ := List.get?_eq_some.mp hop
    injection h with h
    subst h
    exact ⟨hi, by show i < i + 1; omega, by show i + 1 ≤ ops.length; omega⟩

/-- The `while (MOI != MOE) MOI = parseOperand(MOI, MOE, Locations, LiveOuts)`
loop of `recordStackMapOpers`, with `MOE` the end of the operand list. -/
def parseOperandsLoop (tri : TRI) (ptrSizeBits : Nat) (ops : List MachineOperand)
    (i : Nat) (Locs : List Location) (LiveOuts : List LiveOutReg) :
    Option (List Location × List LiveOutReg) :=
  if i = ops.length then some (Locs, LiveOuts)
  else
    match h : parseOperand tri ptrSizeBits ops i Locs LiveOuts with
    | none => none
    | some res => parseOperandsLoop tri ptrSizeBits ops res.2.2 res.1 res.2.1
termination_by ops.length - i
decreasing_by
  have := parseOperand_advances tri ptrSizeBits ops i Locs LiveOuts _ h
  omega

/-! ## Constant-pool interning and call-site recording -/

/-- Model of `ConstPool.insert(std::make_pair(I->Offset, I->Offset))` on the
MapVector: if the u64 key is present nothing changes and the iterator points
at the existing entry, otherwise the pair is appended; the returned index is
`Result.first - ConstPool.begin()`. -/
def constPoolInsert (pool : List Nat) (key : Nat) : List Nat × Nat :=
  match pool with
  | [] => ([key], 0)
  | p :: ps =>
    if p == key then (p :: ps, 0)
    else
      let r := constPoolInsert ps key
      (p :: r.1, r.2 + 1)

/-- The large-constant promotion loop of `recordStackMapOpers`: every
location of kind Constant whose offset does not fit `isInt<32>` becomes a
ConstantIndex whose offset is the pool index of the u64 value (the
`uint64_t` keys of the MapVector being the cast of the int64_t offset). -/
def promoteConstants : List Location → List Nat → List Location × List Nat
  | [], pool => ([], pool)
  | l :: ls, pool =>
    if l.LocType = LocationKind.Constant ∧ ¬ isInt32 l.Offset then
      let r := constPoolInsert pool (toU64 l.Offset)
      let rest := promoteConstants ls r.1
      ({ l with LocType := LocationKind.ConstantIndex, Offset := (r.2 : Int) } :: rest.1,
       rest.2)
    else
      let rest := promoteConstants ls pool
      (l :: rest.1, rest.2)

/-- `FnStackSize[AP.CurrentFnSym] = v` on the MapVector: update the existing
entry or append a new one. -/
def fnStackSizeSet (m : List (Nat × Nat)) (k v : Nat) : List (Nat × Nat) :=
  if m.any (·.1 == k) then m.map (fun p => if p.1 == k then (k, v) else p)
  else m ++ [(k, v)]

def UINT64MAX : Nat := 2 ^ 64 - 1

/-- Model of `StackMaps::recordStackMapOpers`.  The temporary label emission
and the construction of the `label − fn_entry` MCExpr are abstracted into the
opaque expression identifier `MILabelExpr`; the frame-info queries are the
booleans and sizes passed in.  When `recordResult` is set the def operand at
index 0 is parsed first, then the operand range starting at `startIdx` is
parsed to exhaustion, large constants are promoted into the pool, the new
call-site record is appended, and the current function's frame size is
recorded (`UINT64_MAX` for dynamically-sized frames). -/
def recordStackMapOpers (tri : TRI) (ptrSizeBits : Nat) (st : StackMapsState)
    (MILabelExpr : Nat) (ID : Nat) (ops : List MachineOperand) (startIdx : Nat)
    (recordResult : Bool) (CurrentFnSym : Nat) (DynamicFrameSize : Bool)
    (StackSizeVal : Nat) : Option StackMapsState := do
  let init ←
    if recordResult then
      (parseOperand tri ptrSizeBits ops 0 [] []).map fun r => (r.1, r.2.1)
    else some ([], [])
  let (Locations, LiveOuts) ←
    parseOperandsLoop tri ptrSizeBits ops startIdx init.1 init.2
  let promoted := promoteConstants Locations st.ConstPool
  some { CSInfos := st.CSInfos ++ [⟨MILabelExpr, ID, promoted.1, LiveOuts⟩],
         ConstPool := promoted.2,
         FnStackSize := fnStackSizeSet st.FnStackSize CurrentFnSym
           (if DynamicFrameSize then UINT64MAX else StackSizeVal) }

/-! ## Serialization -/

/-- One call to the abstract MCStreamer: an integer value of a given byte
width (`EmitIntValue`, the value being the `uint64_t` argument), a deferred
expression (`EmitValue`), a symbol reference (`EmitSymbolValue`), or an
alignment directive (`EmitValueToAlignment`). -/
inductive EmitItem where
  | intVal (value : Nat) (size : Nat)
  | exprVal (e : Nat) (size : Nat)
  | symVal (s : Nat) (size : Nat)
  | alignTo (a : Nat)
deriving DecidableEq, Repr, Inhabited

/-- Byte count of a sequence of emissions starting at stream offset
`offset`; `EmitValueToAlignment a` pads the stream offset up to the next
multiple of `a`. -/
def itemsSize (offset : Nat) : List EmitItem → Nat
  | [] => 0
  | EmitItem.intVal _ n :: rest => n + itemsSize (offset + n) rest
  | EmitItem.exprVal _ n :: rest => n + itemsSize (offset + n) rest
  | EmitItem.symVal _ n :: rest => n + itemsSize (offset + n) rest
  | EmitItem.alignTo a :: rest =>
    let pad := (a - offset % a) % a
    pad + itemsSize (offset + pad) rest

/-- The per-call-site body of `StackMaps::emitCallsiteEntries`: when the
location or live-out count overflows the u16 fields, the sentinel record
(invalid ID `UINT64_MAX`, the pc-offset expression, zero flags, counts and
padding) is emitted instead of the real contents; otherwise the id, the
pc-offset expression, the reserved flags, the location records, the live-out
records and the trailing 8-byte alignment are emitted. -/
def emitCallsiteEntry (CSI : CallSiteInfo) : List EmitItem :=
  if CSI.Locations.length > 65535 ∨ CSI.LiveOuts.length > 65535 then
    [EmitItem.intVal UINT64MAX 8, EmitItem.exprVal CSI.CSOffsetExpr 4,
     EmitItem.intVal 0 2, EmitItem.intVal 0 2, EmitItem.intVal 0 2,
     EmitItem.intVal 0 2, EmitItem.intVal 0 4]
  else
    [EmitItem.intVal CSI.ID 8, EmitItem.exprVal CSI.CSOffsetExpr 4,
     EmitItem.intVal 0 2, EmitItem.intVal CSI.Locations.length 2]
    ++ (CSI.Locations.map fun Loc =>
         [EmitItem.intVal Loc.LocType.enc 1, EmitItem.intVal Loc.Size 1,
          EmitItem.intVal Loc.Reg 2, EmitItem.intVal (toU64 Loc.Offset) 4]).flatten
    ++ [EmitItem.intVal 0 2, EmitItem.intVal CSI.LiveOuts.length 2]
    ++ (CSI.LiveOuts.map fun LO =>
         [EmitItem.intVal LO.RegNo 2, EmitItem.intVal 0 1,
          EmitItem.intVal LO.Size 1]).flatten
    ++ [EmitItem.alignTo 8]

/-- Model of `StackMaps::emitCallsiteEntries`: the loop over `CSInfos`. -/
def emitCallsiteEntries (CSInfos : List CallSiteInfo) : List EmitItem :=
  (CSInfos.map emitCallsiteEntry).flatten

/-- Model of `StackMaps::emitStackmapHeader` (version 1). -/
def emitStackmapHeader (st : StackMapsState) : List EmitItem :=
  [EmitItem.intVal 1 1, EmitItem.intVal 0 1, EmitItem.intVal 0 2,
   EmitItem.intVal st.FnStackSize.length 4, EmitItem.intVal st.ConstPool.length 4,
   EmitItem.intVal st.CSInfos.length 4]

/-- Model of `StackMaps::emitFunctionFrameRecords`: a symbol reference and a
u64 stack size per function, in insertion order. -/
def emitFunctionFrameRecords (st : StackMapsState) : List EmitItem :=
  (st.FnStackSize.map fun FR => [EmitItem.symVal FR.1 8, EmitItem.intVal FR.2 8]).flatten

/-- Model of `StackMaps::emitConstantPoolEntries`: u64 values in insertion
order. -/
def emitConstantPoolEntries (st : StackMapsState) : List EmitItem :=
  st.ConstPool.map fun c => EmitItem.intVal c 8

/-- Byte-accounting for the call-site records: the size of each record as
emitted at its actual stream offset. -/
def callsiteRecordSizes (offset : Nat) : List CallSiteInfo → List Nat
  | [] => []
  | c :: cs =>
    let s := itemsSize offset (emitCallsiteEntry c)
    s :: callsiteRecordSizes (offset + s) cs

/-- Model of `StackMaps::serializeToStackMapSection`: nothing is emitted when
there is no stack-map data (the asserts require the constant pool and the
frame table to be empty too); otherwise the header, function frame records,
constant pool and call-site entries are emitted (the section switch and the
`__LLVM_StackMaps` label are abstracted away, contributing no bytes), and
the call-site list and constant pool are cleared. -/
def serializeToStackMapSection (st : StackMapsState) :
    Option (StackMapsState × List EmitItem) :=
  if st.CSInfos.isEmpty then
    if st.ConstPool.isEmpty then
      if st.FnStackSize.isEmpty then some (st, []) else none
    else none
  else
    some ({ st with CSInfos := [], ConstPool := [] },
      emitStackmapHeader st ++ emitFunctionFrameRecords st
        ++ emitConstantPoolEntries st ++ emitCallsiteEntries st.CSInfos)

/-! ## Specification-level view of the merge pass (used in proofs) -/

/-- The value accumulated into the surviving entry of one run of equal DWARF
numbers: the fold of `mergeStep` over the run. -/
def mergeRun (tri : TRI) (x : LiveOutReg) (run : List LiveOutReg) : LiveOutReg :=
  run.foldl (mergeStep tri) x

/-- Run-by-run view of the merge pass: each maximal run of entries sharing
the head's DWARF number collapses to its folded survivor. -/
def mergeRuns (tri : TRI) : List LiveOutReg → List LiveOutReg
  | [] => []
  | x :: xs =>
    mergeRun tri x (xs.takeWhile fun y => x.RegNo == y.RegNo) ::
      mergeRuns tri (xs.dropWhile fun y => x.RegNo == y.RegNo)
termination_by l => l.length
decreasing_by
  have hsub : (List.dropWhile (fun y => x.RegNo == y.RegNo) xs).Sublist xs :=
    List.dropWhile_sublist (fun y : LiveOutReg => x.RegNo == y.RegNo)
  have := hsub.length_le
  simp only [List.length_cons]; omega

/-- The entries of `l` at positions `j ≤ k < m`, read positionally. -/
def seg (l : List LiveOutReg) (j m : Nat) : List LiveOutReg :=
  (List.range (m - j)).map fun t => l.getD (j + t) default

/-- The first position at or after `j` whose entry does not carry DWARF
number `v` (or the length of the vector when the run reaches the end). -/
def runEnd (l : List LiveOutReg) (v : Nat) (j : Nat) : Nat :=
  if _h : j < l.length then
    if (l.getD j default).RegNo = v then runEnd l v (j + 1) else j
  else l.length
termination_by l.length - j

/-- A three-register catalog used as a concrete witness: register 1 is the
wide form (8 bytes) and register 2 the narrow form (4 bytes) of DWARF
register 0, with 1 a super-register of 2. -/
def triW : TRI where
  dwarfRegNum := fun r => if r = 1 ∨ r = 2 then 0 else -1
  superRegs := fun _ => []
  classSize := fun r => if r = 1 then 8 else if r = 2 then 4 else 1
  isSuperRegister := fun a b => a == 2 && b == 1
  NumRegs := 3
  llvmRegNum := fun _ => 1
  subRegIndex := fun _ _ => 0
  subRegIdxOffset := fun _ => 0

end StackMapsModel

namespace StackMapsModel

/-! ## Basic lemmas about the byte reader -/

theorem readLE_congr (data data2 : List Nat) :
    ∀ (n offset : Nat), (∀ k, k < n → data2.getD (offset + k) 0 = data.getD (offset + k) 0) →
      readLE data2 offset n = readLE data offset n := by
  intro n
  induction n with
  | zero => intro offset _; rfl
  | succ m ih =>
    intro offset h
    simp only [readLE]
    have h0 : data2.getD offset 0 = data.getD offset 0 := by
      simpa using h 0 (by omega)
    have hrest : readLE data2 (offset + 1) m = readLE data (offset + 1) m :=
      ih (offset + 1) fun k hk => by
        have hx := h (k + 1) (by omega)
        have e : offset + (k + 1) = offset + 1 + k := by omega
        rwa [e] at hx
    rw [h0, hrest]

theorem parse_primitive_eq (size : Nat) (data : List Nat) (offset len : Nat)
    (v o : Nat) (h : parse_primitive size data offset len = some (v, o)) :
    v = readLE data offset size ∧ o = offset + size ∧ offset < len ∧ offset + size ≤ len := by
  unfold parse_primitive at h
  by_cases h1 : offset < len
  · rw [if_pos h1] at h
    dsimp only at h
    by_cases h2 : offset + size ≤ len
    · rw [if_pos h2] at h
      injection h with h
      exact ⟨(congrArg Prod.fst h).symm, (congrArg Prod.snd h).symm, h1, h2⟩
    · rw [if_neg h2] at h
      exact absurd h (by simp)
  · rw [if_neg h1] at h
    exact absurd h (by simp)

/-- C8.  For every buffer `data` (of length `len = data.length`) and every
offset with `offset + sizeof(T) ≤ len`, `parse_primitive` succeeds — both of
its assertions hold, in particular the bounds check before the copy —
returning exactly the `sizeof(T)` bytes at `offset` reinterpreted
little-endian as the primitive and advancing the offset by exactly
`sizeof(T)`; moreover the value read depends only on the bytes in
`[offset, offset + sizeof(T))`. -/
theorem C8_parse_primitive (data : List Nat) (size offset : Nat)
    (hsize : 1 ≤ size) (h : offset + size ≤ data.length) :
    parse_primitive size data offset data.length =
      some (readLE data offset size, offset + size) ∧
    ∀ data2 : List Nat,
      (∀ k, k < size → data2.getD (offset + k) 0 = data.getD (offset + k) 0) →
      readLE data2 offset size = readLE data offset size := by
  constructor
  · unfold parse_primitive
    rw [if_pos (by omega), if_pos (by omega)]
  · exact fun data2 h2 => readLE_congr data data2 size offset h2

/-- Witness for C8 at a concrete buffer: reading 2 bytes at offset 1 of
`[1, 2, 3]` yields the little-endian value 770 and advances to offset 3;
the value is insensitive to bytes outside the window. -/
theorem C8_witness :
    parse_primitive 2 [1, 2, 3] 1 (List.length [1, 2, 3]) =
      some (readLE [1, 2, 3] 1 2, 1 + 2) ∧
    readLE [9, 2, 3, 99] 1 2 = readLE [1, 2, 3] 1 2 :=
  ⟨(C8_parse_primitive [1, 2, 3] 2 1 (by decide) (by decide)).1,
   (C8_parse_primitive [1, 2, 3] 2 1 (by decide) (by decide)).2 [9, 2, 3, 99] (by decide)⟩

/-! ## C5: serialization clears the call sites and the constant pool -/

/-- C5.  For every writer state with at least one recorded call site,
`serializeToStackMapSection` succeeds and leaves the call-site list and the
constant pool empty while the function frame table is unchanged. -/
theorem C5_serialize_clears (st : StackMapsState) (h : st.CSInfos ≠ []) :
    ∃ items, serializeToStackMapSection st =
      some ({ CSInfos := [], ConstPool := [], FnStackSize := st.FnStackSize }, items) := by
  refine ⟨emitStackmapHeader st ++ emitFunctionFrameRecords st ++ emitConstantPoolEntries st
    ++ emitCallsiteEntries st.CSInfos, ?_⟩
  have hne : st.CSInfos.isEmpty = false := by
    cases hcs : st.CSInfos with
    | nil => exact absurd hcs h
    | cons a l => simp
  unfold serializeToStackMapSection
  rw [hne]
  rfl

/-- Witness for C5 at a concrete writer state with one recorded call site,
one pooled constant and one frame-table entry. -/
theorem C5_witness :
    ∃ items,
      serializeToStackMapSection ⟨[⟨0, 1, [], []⟩], [4294967296], [(5, 16)]⟩ =
        some (⟨[], [], [(5, 16)]⟩, items) :=
  C5_serialize_clears ⟨[⟨0, 1, [], []⟩], [4294967296], [(5, 16)]⟩ (by simp)

/-! ## C9: constant-pool interning is idempotent -/

theorem constPoolInsert_not_mem (pool : List Nat) (key : Nat) (h : key ∉ pool) :
    constPoolInsert pool key = (pool ++ [key], pool.length) := by
  induction pool with
  | nil => rfl
  | cons p ps ih =>
    simp only [List.mem_cons, not_or] at h
    have hp : (p == key) = false := beq_eq_false_iff_ne.mpr fun hpk => h.1 hpk.symm
    simp only [constPoolInsert, hp, Bool.false_eq_true, if_false, ih h.2,
      List.cons_append, List.length_cons]

theorem constPoolInsert_found (pool ext : List Nat) (key : Nat) (h : key ∉ pool) :
    constPoolInsert (pool ++ key :: ext) key = (pool ++ key :: ext, pool.length) := by
  induction pool with
  | nil => simp [constPoolInsert]
  | cons p ps ih =>
    simp only [List.mem_cons, not_or] at h
    have hp : (p == key) = false := beq_eq_false_iff_ne.mpr fun hpk => h.1 hpk.symm
    simp only [List.cons_append, constPoolInsert, hp, Bool.false_eq_true, if_false,
      List.length_cons, List.append_eq, ih h.2]

/-- C9.  Interning a 64-bit value `v` outside the signed 32-bit range through
the large-constant path is idempotent: the first insertion appends the value
and returns index `pool.length`, and every later insertion — after the pool
has grown arbitrarily (`ext`) across further recorded call sites — returns
the same index and leaves the pool unchanged, so the pool grows by exactly
one entry for `v` in total. -/
theorem C9_interning (pool ext : List Nat) (v : Int) (h32 : ¬ isInt32 v)
    (hnew : toU64 v ∉ pool) :
    constPoolInsert pool (toU64 v) = (pool ++ [toU64 v], pool.length) ∧
    constPoolInsert (pool ++ toU64 v :: ext) (toU64 v) =
      (pool ++ toU64 v :: ext, pool.length) :=
  ⟨constPoolInsert_not_mem pool (toU64 v) hnew,
   constPoolInsert_found pool ext (toU64 v) hnew⟩

/-- Witness for C9 at `v = 2^32` against an empty pool and a later pool that
has grown by one further constant. -/
theorem C9_witness :
    constPoolInsert ([] : List Nat) (toU64 4294967296) = ([toU64 4294967296], 0) ∧
    constPoolInsert (toU64 4294967296 :: [7]) (toU64 4294967296) =
      (toU64 4294967296 :: [7], 0) :=
  C9_interning [] [7] 4294967296 (by decide) (by decide)

/-! ## C3: the overflow sentinel record -/

theorem emitCallsiteEntries_split (pre post : List CallSiteInfo) (csi : CallSiteInfo) :
    emitCallsiteEntries (pre ++ csi :: post) =
      emitCallsiteEntries pre ++ (emitCallsiteEntry csi ++ emitCallsiteEntries post) := by
  simp [emitCallsiteEntries]

/-- C3.  In `emitCallsiteEntries`, every call site whose location count or
live-out count exceeds 65535 is emitted as the sentinel record — id
`UINT64_MAX` (u64), the pc-offset expression (u32), flags 0 (u16),
0 locations (u16), 0 padding (u16), 0 live-outs (u16) and a final u32
padding of 0 — in place of its real contents, while every call site within
the limits is emitted with its real contents. -/
theorem C3_overflow_sentinel (pre post : List CallSiteInfo) (csi : CallSiteInfo) :
    (csi.Locations.length > 65535 ∨ csi.LiveOuts.length > 65535 →
      emitCallsiteEntries (pre ++ csi :: post) =
        emitCallsiteEntries pre ++
          ([EmitItem.intVal UINT64MAX 8, EmitItem.exprVal csi.CSOffsetExpr 4,
            EmitItem.intVal 0 2, EmitItem.intVal 0 2, EmitItem.intVal 0 2,
            EmitItem.intVal 0 2, EmitItem.intVal 0 4] ++ emitCallsiteEntries post)) ∧
    (csi.Locations.length ≤ 65535 → csi.LiveOuts.length ≤ 65535 →
      emitCallsiteEntries (pre ++ csi :: post) =
        emitCallsiteEntries pre ++
          (([EmitItem.intVal csi.ID 8, EmitItem.exprVal csi.CSOffsetExpr 4,
             EmitItem.intVal 0 2, EmitItem.intVal csi.Locations.length 2]
            ++ (csi.Locations.map fun Loc =>
                 [EmitItem.intVal Loc.LocType.enc 1, EmitItem.intVal Loc.Size 1,
                  EmitItem.intVal Loc.Reg 2, EmitItem.intVal (toU64 Loc.Offset) 4]).flatten
            ++ [EmitItem.intVal 0 2, EmitItem.intVal csi.LiveOuts.length 2]
            ++ (csi.LiveOuts.map fun LO =>
                 [EmitItem.intVal LO.RegNo 2, EmitItem.intVal 0 1,
                  EmitItem.intVal LO.Size 1]).flatten
            ++ [EmitItem.alignTo 8]) ++ emitCallsiteEntries post)) := by
  constructor
  · intro hov
    rw [emitCallsiteEntries_split]
    have he : emitCallsiteEntry csi =
        [EmitItem.intVal UINT64MAX 8, EmitItem.exprVal csi.CSOffsetExpr 4,
         EmitItem.intVal 0 2, EmitItem.intVal 0 2, EmitItem.intVal 0 2,
         EmitItem.intVal 0 2, EmitItem.intVal 0 4] := by
      unfold emitCallsiteEntry
      rw [if_pos hov]
    rw [he]
  · intro h1 h2
    rw [emitCallsiteEntries_split]
    have he : emitCallsiteEntry csi =
        [EmitItem.intVal csi.ID 8, EmitItem.exprVal csi.CSOffsetExpr 4,
         EmitItem.intVal 0 2, EmitItem.intVal csi.Locations.length 2]
        ++ (csi.Locations.map fun Loc =>
             [EmitItem.intVal Loc.LocType.enc 1, EmitItem.intVal Loc.Size 1,
              EmitItem.intVal Loc.Reg 2, EmitItem.intVal (toU64 Loc.Offset) 4]).flatten
        ++ [EmitItem.intVal 0 2, EmitItem.intVal csi.LiveOuts.length 2]
        ++ (csi.LiveOuts.map fun LO =>
             [EmitItem.intVal LO.RegNo 2, EmitItem.intVal 0 1,
              EmitItem.intVal LO.Size 1]).flatten
        ++ [EmitItem.alignTo 8] := by
      unfold emitCallsiteEntry
      rw [if_neg (by omega)]
    rw [he]

/-- Witness for C3: a single call site holding 65536 locations is emitted as
the sentinel record. -/
theorem C3_witness :
    emitCallsiteEntries [⟨3, 9, List.replicate 65536 default, []⟩] =
      [EmitItem.intVal UINT64MAX 8, EmitItem.exprVal 3 4, EmitItem.intVal 0 2,
       EmitItem.intVal 0 2, EmitItem.intVal 0 2, EmitItem.intVal 0 2,
       EmitItem.intVal 0 4] := by
  have h := (C3_overflow_sentinel [] [] ⟨3, 9, List.replicate 65536 default, []⟩).1
    (Or.inl (by rw [show (⟨3, 9, List.replicate 65536 default, []⟩ : CallSiteInfo).Locations
        = List.replicate 65536 default from rfl, List.length_replicate]; omega))
  rw [show ([] ++ (⟨3, 9, List.replicate 65536 default, []⟩ : CallSiteInfo) :: []
      : List CallSiteInfo) = [⟨3, 9, List.replicate 65536 default, []⟩] from rfl] at h
  rw [h]
  rfl

/-! ## C4: call-site records are 8-byte aligned -/

theorem itemsSize_append (a b : List EmitItem) :
    ∀ offset, itemsSize offset (a ++ b) =
      itemsSize offset a + itemsSize (offset + itemsSize offset a) b := by
  induction a with
  | nil => intro offset; simp [itemsSize]
  | cons x rest ih =>
    intro offset
    cases x <;> simp [itemsSize, ih, Nat.add_assoc]

theorem itemsSize_locItems (locs : List Location) :
    ∀ offset, itemsSize offset ((locs.map fun Loc =>
      [EmitItem.intVal Loc.LocType.enc 1, EmitItem.intVal Loc.Size 1,
       EmitItem.intVal Loc.Reg 2, EmitItem.intVal (toU64 Loc.Offset) 4]).flatten) =
      8 * locs.length := by
  induction locs with
  | nil => intro offset; simp [itemsSize]
  | cons x rest ih =>
    intro offset
    simp only [List.map_cons, List.flatten_cons, List.cons_append, List.nil_append,
      List.append_eq, itemsSize, ih, List.length_cons]
    omega

theorem itemsSize_loItems (los : List LiveOutReg) :
    ∀ offset, itemsSize offset ((los.map fun LO =>
      [EmitItem.intVal LO.RegNo 2, EmitItem.intVal 0 1,
       EmitItem.intVal LO.Size 1]).flatten) = 4 * los.length := by
  induction los with
  | nil => intro offset; simp [itemsSize]
  | cons x rest ih =>
    intro offset
    simp only [List.map_cons, List.flatten_cons, List.cons_append, List.nil_append,
      List.append_eq, itemsSize, ih, List.length_cons]
    omega

theorem itemsSize_fnItems (m : List (Nat × Nat)) :
    ∀ offset, itemsSize offset ((m.map fun FR =>
      [EmitItem.symVal FR.1 8, EmitItem.intVal FR.2 8]).flatten) = 16 * m.length := by
  induction m with
  | nil => intro offset; simp [itemsSize]
  | cons x rest ih =>
    intro offset
    simp only [List.map_cons, List.flatten_cons, List.cons_append, List.nil_append,
      List.append_eq, itemsSize, ih, List.length_cons]
    omega

theorem itemsSize_constItems (pool : List Nat) :
    ∀ offset, itemsSize offset (pool.map fun c => EmitItem.intVal c 8) = 8 * pool.length := by
  induction pool with
  | nil => intro offset; simp [itemsSize]
  | cons x rest ih =>
    intro offset
    simp only [List.map_cons, itemsSize, ih, List.length_cons]
    omega

theorem emitCallsiteEntry_size (c : CallSiteInfo) (offset : Nat) (h : offset % 8 = 0) :
    itemsSize offset (emitCallsiteEntry c) % 8 = 0 := by
  unfold emitCallsiteEntry
  split_ifs with hov
  · simp [itemsSize]
  · simp only [itemsSize_append, itemsSize_locItems, itemsSize_loItems, itemsSize,
      List.cons_append, List.nil_append, List.append_eq, List.append_assoc]
    omega

theorem preludeAligned (st : StackMapsState) :
    itemsSize 0 (emitStackmapHeader st ++ emitFunctionFrameRecords st
      ++ emitConstantPoolEntries st) % 8 = 0 := by
  simp only [itemsSize_append, emitStackmapHeader, emitFunctionFrameRecords,
    emitConstantPoolEntries, itemsSize_fnItems, itemsSize_constItems, itemsSize,
    List.cons_append, List.nil_append, List.append_eq, List.append_assoc]
  omega

/-- C4.  When the call-site records start at an 8-byte-aligned stream offset
— which they do, the header, function frame records and constant pool
occupying a multiple of 8 bytes — every emitted call-site record (both the
sentinel path and the normal path, whose trailing `EmitValueToAlignment(8)`
pads it out) occupies a number of bytes that is a multiple of 8, and the
per-record sizes account exactly for the bytes of `emitCallsiteEntries`. -/
theorem C4_record_alignment (csis : List CallSiteInfo) (offset : Nat)
    (h : offset % 8 = 0) :
    (∀ s ∈ callsiteRecordSizes offset csis, s % 8 = 0) ∧
    itemsSize offset (emitCallsiteEntries csis) = (callsiteRecordSizes offset csis).sum ∧
    ∀ st : StackMapsState,
      itemsSize 0 (emitStackmapHeader st ++ emitFunctionFrameRecords st
        ++ emitConstantPoolEntries st) % 8 = 0 := by
  refine ⟨?_, ?_, fun st => preludeAligned st⟩
  · revert h
    induction csis generalizing offset with
    | nil => intro h s hs; simp [callsiteRecordSizes] at hs
    | cons c cs ih =>
      intro h s hs
      simp only [callsiteRecordSizes, List.mem_cons] at hs
      rcases hs with rfl | hs
      · exact emitCallsiteEntry_size c offset h
      · exact ih (offset + itemsSize offset (emitCallsiteEntry c))
          (by have := emitCallsiteEntry_size c offset h; omega) s hs
  · clear h
    induction csis generalizing offset with
    | nil => simp [callsiteRecordSizes, emitCallsiteEntries, itemsSize]
    | cons c cs ih =>
      have hsplit : emitCallsiteEntries (c :: cs) =
          emitCallsiteEntry c ++ emitCallsiteEntries cs := by
        simp [emitCallsiteEntries]
      rw [hsplit, itemsSize_append]
      simp only [callsiteRecordSizes, List.sum_cons]
      rw [ih (offset + itemsSize offset (emitCallsiteEntry c))]

/-- Witness for C4 at a concrete record list starting at stream offset 0. -/
theorem C4_witness :
    (∀ s ∈ callsiteRecordSizes 0
        [⟨0, 1, [⟨LocationKind.Constant, 8, 0, 42⟩], []⟩, ⟨1, 2, [], [⟨1, 0, 8, true⟩]⟩],
      s % 8 = 0) ∧
    itemsSize 0 (emitCallsiteEntries
        [⟨0, 1, [⟨LocationKind.Constant, 8, 0, 42⟩], []⟩, ⟨1, 2, [], [⟨1, 0, 8, true⟩]⟩]) =
      (callsiteRecordSizes 0
        [⟨0, 1, [⟨LocationKind.Constant, 8, 0, 42⟩], []⟩, ⟨1, 2, [], [⟨1, 0, 8, true⟩]⟩]).sum ∧
    ∀ st : StackMapsState,
      itemsSize 0 (emitStackmapHeader st ++ emitFunctionFrameRecords st
        ++ emitConstantPoolEntries st) % 8 = 0 :=
  C4_record_alignment
    [⟨0, 1, [⟨LocationKind.Constant, 8, 0, 42⟩], []⟩, ⟨1, 2, [], [⟨1, 0, 8, true⟩]⟩]
    0 (by decide)

/-! ## C6: the reader reads 64-bit function frame records -/

/-- Counterexample to C6 as stated.  On a concrete 32-byte section holding
one function frame record, `StackMapSection::parse` consumes sixteen bytes
for the record — a u64 address 8589934593 (0x2_0000_0001) followed by a u64
size 17179869187 (0x4_0000_0003) — and finishes at offset 32; it does not
read the record as a u32 offset 1 followed by a u32 size 2 finishing at
offset 24, as the reduced 4-byte-field layout claimed by C6 would. -/
theorem C6_counterexample :
    StackMapSection.parse
      [1, 0, 0, 0, 1, 0, 0, 0, 0, 0, 0, 0, 0, 0, 0, 0,
       1, 0, 0, 0, 2, 0, 0, 0, 3, 0, 0, 0, 4, 0, 0, 0] 0 32 =
      some (⟨1, 0, 0, [⟨8589934593, 17179869187⟩], [], []⟩, 32) ∧
    ¬ (StackMapSection.parse
      [1, 0, 0, 0, 1, 0, 0, 0, 0, 0, 0, 0, 0, 0, 0, 0,
       1, 0, 0, 0, 2, 0, 0, 0, 3, 0, 0, 0, 4, 0, 0, 0] 0 32 =
      some (⟨1, 0, 0, [⟨1, 2⟩], [], []⟩, 24)) :=
  ⟨by decide, by decide⟩

/-- C6 amended: `StackMapSection::parse` reads every function frame record
as a u64 function address followed by a u64 stack size — sixteen bytes per
record, the writer's own layout — not the u32 offset / u32 size reduced
layout described in the documentation comment above the reader. -/
theorem C6_fn_records_u64 (data : List Nat) (len : Nat) :
    ∀ (n offset : Nat) (recs : List StackMapSizeRecord) (off' : Nat),
      parseFnRecords n data offset len = some (recs, off') →
      off' = offset + 16 * n ∧ recs.length = n ∧
      ∀ i, i < n → recs.getD i default =
        ⟨readLE data (offset + 16 * i) 8, readLE data (offset + 16 * i + 8) 8⟩ := by
  intro n
  induction n with
  | zero =>
    intro offset recs off' h
    simp only [parseFnRecords] at h
    injection h with h
    have h1 : recs = [] := (congrArg Prod.fst h).symm
    have h2 : off' = offset := (congrArg Prod.snd h).symm
    subst h1 h2
    exact ⟨by omega, rfl, fun i hi => by omega⟩
  | succ m ih =>
    intro offset recs off' h
    simp only [parseFnRecords, Option.bind_eq_bind] at h
    rcases hp1 : parse_primitive 8 data offset len with _ | ⟨addr, o1⟩ <;> rw [hp1] at h
    · exact absurd h (by simp)
    rw [Option.some_bind] at h
    rcases hp2 : parse_primitive 8 data o1 len with _ | ⟨sz, o2⟩ <;> rw [hp2] at h
    · exact absurd h (by simp)
    rw [Option.some_bind] at h
    rcases hp3 : parseFnRecords m data o2 len with _ | ⟨rest, o3⟩ <;> rw [hp3] at h
    · exact absurd h (by simp)
    rw [Option.some_bind] at h
    injection h with h
    obtain ⟨ha1, ha2, -, -⟩ := parse_primitive_eq 8 data offset len addr o1 hp1
    obtain ⟨hb1, hb2, -, -⟩ := parse_primitive_eq 8 data o1 len sz o2 hp2
    obtain ⟨hc1, hc2, hc3⟩ := ih o2 rest o3 hp3
    have hrecs : recs = ⟨addr, sz⟩ :: rest := (congrArg Prod.fst h).symm
    have hoff : off' = o3 := (congrArg Prod.snd h).symm
    subst ha2 hb2 hrecs hoff hc1
    refine ⟨by omega, by simp [hc2], ?_⟩
    intro i hi
    cases i with
    | zero =>
      simp only [List.getD_cons_zero, Nat.mul_zero, Nat.add_zero]
      rw [ha1, hb1]
    | succ j =>
      simp only [List.getD_cons_succ]
      have e : offset + 16 * (j + 1) = offset + 8 + 8 + 16 * j := by ring
      rw [e]
      exact hc3 j (by omega)

/-- Witness for the amended C6 at the concrete section of the
counterexample: the single function record occupies bytes 16..31. -/
theorem C6_witness :
    (32 : Nat) = 16 + 16 * 1 ∧
    [(⟨8589934593, 17179869187⟩ : StackMapSizeRecord)].length = 1 ∧
    ∀ i, i < 1 → [(⟨8589934593, 17179869187⟩ : StackMapSizeRecord)].getD i default =
      ⟨readLE [1, 0, 0, 0, 1, 0, 0, 0, 0, 0, 0, 0, 0, 0, 0, 0,
               1, 0, 0, 0, 2, 0, 0, 0, 3, 0, 0, 0, 4, 0, 0, 0] (16 + 16 * i) 8,
       readLE [1, 0, 0, 0, 1, 0, 0, 0, 0, 0, 0, 0, 0, 0, 0, 0,
               1, 0, 0, 0, 2, 0, 0, 0, 3, 0, 0, 0, 4, 0, 0, 0] (16 + 16 * i + 8) 8⟩ :=
  C6_fn_records_u64
    [1, 0, 0, 0, 1, 0, 0, 0, 0, 0, 0, 0, 0, 0, 0, 0,
     1, 0, 0, 0, 2, 0, 0, 0, 3, 0, 0, 0, 4, 0, 0, 0] 32 1 16
    [⟨8589934593, 17179869187⟩] 32 (by decide)

/-! ## C7: the stack-map record parser -/

theorem LocationRecord.parse_eq (data : List Nat) (offset len : Nat)
    (rec : LocationRecord) (o : Nat)
    (h : LocationRecord.parse data offset len = some (rec, o)) :
    rec = ⟨data.getD offset 0, data.getD (offset + 1) 0, readLE data (offset + 2) 2,
           toInt32 (readLE data (offset + 4) 4)⟩ ∧
    rec.Ty ≤ 5 ∧ o = offset + 8 ∧ offset + 8 ≤ len := by
  unfold LocationRecord.parse at h
  by_cases h1 : offset + 8 ≤ len
  · rw [if_pos h1] at h
    dsimp only at h
    by_cases h2 : data.getD offset 0 ≤ 5
    · rw [if_pos h2] at h
      injection h with h
      have h3 : rec = ⟨data.getD offset 0, data.getD (offset + 1) 0,
          readLE data (offset + 2) 2, toInt32 (readLE data (offset + 4) 4)⟩ :=
        (congrArg Prod.fst h).symm
      have h4 : o = offset + 8 := (congrArg Prod.snd h).symm
      exact ⟨h3, by rw [h3]; exact h2, h4, h1⟩
    · rw [if_neg h2] at h
      exact absurd h (by simp)
  · rw [if_neg h1] at h
    exact absurd h (by simp)

theorem parseLocations_spec (data : List Nat) (len : Nat) :
    ∀ (n offset : Nat) (locs : List LocationRecord) (o : Nat),
      parseLocations n data offset len = some (locs, o) →
      o = offset + 8 * n ∧ locs.length = n ∧
      ∀ i, i < n → locs.getD i default =
        ⟨data.getD (offset + 8 * i) 0, data.getD (offset + 8 * i + 1) 0,
         readLE data (offset + 8 * i + 2) 2, toInt32 (readLE data (offset + 8 * i + 4) 4)⟩ ∧
        (locs.getD i default).Ty ≤ 5 := by
  intro n
  induction n with
  | zero =>
    intro offset locs o h
    simp only [parseLocations] at h
    injection h with h
    have h1 : locs = [] := (congrArg Prod.fst h).symm
    have h2 : o = offset := (congrArg Prod.snd h).symm
    subst h1 h2
    exact ⟨by omega, rfl, fun i hi => by omega⟩
  | succ m ih =>
    intro offset locs o h
    simp only [parseLocations, Option.bind_eq_bind] at h
    rcases hp1 : LocationRecord.parse data offset len with _ | ⟨loc, o1⟩ <;> rw [hp1] at h
    · exact absurd h (by simp)
    rw [Option.some_bind] at h
    rcases hp2 : parseLocations m data o1 len with _ | ⟨rest, o2⟩ <;> rw [hp2] at h
    · exact absurd h (by simp)
    rw [Option.some_bind] at h
    injection h with h
    obtain ⟨ha1, ha2, ha3, -⟩ := LocationRecord.parse_eq data offset len loc o1 hp1
    obtain ⟨hb1, hb2, hb3⟩ := ih o1 rest o2 hp2
    have hlocs : locs = loc :: rest := (congrArg Prod.fst h).symm
    have ho : o = o2 := (congrArg Prod.snd h).symm
    subst hlocs ho ha3 hb1
    refine ⟨by omega, by simp [hb2], ?_⟩
    intro i hi
    cases i with
    | zero =>
      simp only [List.getD_cons_zero, Nat.mul_zero, Nat.add_zero]
      exact ⟨ha1, ha1 ▸ ha2⟩
    | succ j =>
      simp only [List.getD_cons_succ]
      have e : offset + 8 * (j + 1) = offset + 8 + 8 * j := by ring
      rw [e]
      exact hb3 j (by omega)

/-- C7.  Whenever `StackMapRecord::parse` succeeds it has read, in order:
the id as a u64 at `offset`, the pc-offset as a u32 at `offset + 8`, a u16
flags field at `offset + 12` asserted to equal 0, a u16 location count at
`offset + 14` followed by exactly that many fixed-width 8-byte location
records, a u16 padding asserted 0 and a u16 live-out count asserted 0; it
then advances the offset to the next 8-byte boundary by adding
`8 − (offset mod 8)` exactly when `offset mod 8 ≠ 0` and otherwise leaves
the offset unchanged. -/
theorem C7_record_parse (data : List Nat) (offset len : Nat) (rec : StackMapRecord)
    (off' : Nat) (h : StackMapRecord.parse data offset len = some (rec, off')) :
    rec.PatchPointID = readLE data offset 8 ∧
    rec.InstructionOffset = readLE data (offset + 8) 4 ∧
    rec.ReservedFlags = 0 ∧ readLE data (offset + 12) 2 = 0 ∧
    rec.Locations.length = readLE data (offset + 14) 2 ∧
    (∀ i, i < rec.Locations.length → rec.Locations.getD i default =
      ⟨data.getD (offset + 16 + 8 * i) 0, data.getD (offset + 16 + 8 * i + 1) 0,
       readLE data (offset + 16 + 8 * i + 2) 2,
       toInt32 (readLE data (offset + 16 + 8 * i + 4) 4)⟩ ∧
      (rec.Locations.getD i default).Ty ≤ 5) ∧
    readLE data (offset + 16 + 8 * rec.Locations.length) 2 = 0 ∧
    readLE data (offset + 18 + 8 * rec.Locations.length) 2 = 0 ∧
    off' = (if (offset + 20 + 8 * rec.Locations.length) % 8 ≠ 0
            then offset + 20 + 8 * rec.Locations.length +
              (8 - (offset + 20 + 8 * rec.Locations.length) % 8)
            else offset + 20 + 8 * rec.Locations.length) := by
  unfold StackMapRecord.parse at h
  simp only [Option.bind_eq_bind] at h
  rcases hp1 : parse_primitive 8 data offset len with _ | ⟨id, o1⟩ <;> rw [hp1] at h
  · exact absurd h (by simp)
  rw [Option.some_bind] at h
  rcases hp2 : parse_primitive 4 data o1 len with _ | ⟨pc, o2⟩ <;> rw [hp2] at h
  · exact absurd h (by simp)
  rw [Option.some_bind] at h
  rcases hp3 : parse_primitive 2 data o2 len with _ | ⟨flags, o3⟩ <;> rw [hp3] at h
  · exact absurd h (by simp)
  rw [Option.some_bind] at h
  rcases hp4 : parse_primitive 2 data o3 len with _ | ⟨numLoc, o4⟩ <;> rw [hp4] at h
  · exact absurd h (by simp)
  rw [Option.some_bind] at h
  obtain ⟨ha1, ha2, -, -⟩ := parse_primitive_eq 8 data offset len id o1 hp1
  obtain ⟨hb1, hb2, -, -⟩ := parse_primitive_eq 4 data o1 len pc o2 hp2
  obtain ⟨hc1, hc2, -, -⟩ := parse_primitive_eq 2 data o2 len flags o3 hp3
  obtain ⟨hd1, hd2, -, -⟩ := parse_primitive_eq 2 data o3 len numLoc o4 hp4
  by_cases hflag : flags ≠ 0
  · rw [if_pos hflag] at h
    exact absurd h (by simp)
  rw [if_neg hflag] at h
  push_neg at hflag
  rcases hp5 : parseLocations numLoc data o4 len with _ | ⟨locs, o5⟩ <;> rw [hp5] at h
  · exact absurd h (by simp)
  rw [Option.some_bind] at h
  rcases hp6 : parse_primitive 2 data o5 len with _ | ⟨pad16, o6⟩ <;> rw [hp6] at h
  · exact absurd h (by simp)
  rw [Option.some_bind] at h
  by_cases hpad : pad16 ≠ 0
  · rw [if_pos hpad] at h
    exact absurd h (by simp)
  rw [if_neg hpad] at h
  push_neg at hpad
  rcases hp7 : parse_primitive 2 data o6 len with _ | ⟨nlo, o7⟩ <;> rw [hp7] at h
  · exact absurd h (by simp)
  rw [Option.some_bind] at h
  by_cases hnlo : nlo ≠ 0
  · rw [if_pos hnlo] at h
    exact absurd h (by simp)
  rw [if_neg hnlo] at h
  push_neg at hnlo
  obtain ⟨he1, he2, he3⟩ := parseLocations_spec data len numLoc o4 locs o5 hp5
  obtain ⟨hf1, hf2, -, -⟩ := parse_primitive_eq 2 data o5 len pad16 o6 hp6
  obtain ⟨hg1, hg2, -, -⟩ := parse_primitive_eq 2 data o6 len nlo o7 hp7
  dsimp only at h
  injection h with h
  have hrec : rec = ⟨id, pc, flags, locs⟩ := (congrArg Prod.fst h).symm
  have hoff : off' = if o7 % 8 ≠ 0 then o7 + (8 - o7 % 8) else o7 :=
    (congrArg Prod.snd h).symm
  subst hrec ha2 hb2 hc2 hd2 he1 hf2 hg2
  have hn : numLoc = readLE data (offset + 8 + 4 + 2) 2 := by rw [hd1]
  have hlen : (⟨id, pc, flags, locs⟩ : StackMapRecord).Locations.length = numLoc := he2
  refine ⟨?_, ?_, ?_, ?_, ?_, ?_, ?_, ?_, ?_⟩
  · exact ha1
  · rw [hb1]
  · exact hflag
  · rw [← hc1]; exact hflag
  · rw [hlen, hn]
  · intro i hi
    rw [hlen] at hi
    have := he3 i hi
    have e : offset + 8 + 4 + 2 + 2 + 8 * i = offset + 16 + 8 * i := by ring
    rw [e] at this
    exact this
  · rw [hlen]
    have e : offset + 8 + 4 + 2 + 2 + 8 * numLoc = offset + 16 + 8 * numLoc := by ring
    rw [← e, ← hf1]
    exact hpad
  · rw [hlen]
    have e : offset + 8 + 4 + 2 + 2 + 8 * numLoc + 2 = offset + 18 + 8 * numLoc := by ring
    rw [← e, ← hg1]
    exact hnlo
  · rw [hoff, hlen]
    have e : offset + 8 + 4 + 2 + 2 + 8 * numLoc + 2 + 2 = offset + 20 + 8 * numLoc := by ring
    rw [e]

/-- Witness for C7 at a concrete 28-byte record buffer holding one location:
the parse succeeds and the final offset 32 is the 8-byte alignment of 28. -/
theorem C7_witness :
    StackMapRecord.parse
      [7, 0, 0, 0, 0, 0, 0, 0, 5, 0, 0, 0, 0, 0, 1, 0,
       1, 8, 0, 0, 16, 0, 0, 0, 0, 0, 0, 0] 0 28 =
      some (⟨7, 5, 0, [⟨1, 8, 0, 16⟩]⟩, 32) ∧
    (32 : Nat) = (if (0 + 20 + 8 * 1) % 8 ≠ 0
                  then 0 + 20 + 8 * 1 + (8 - (0 + 20 + 8 * 1) % 8)
                  else 0 + 20 + 8 * 1) := by
  refine ⟨by decide, ?_⟩
  have h := C7_record_parse
    [7, 0, 0, 0, 0, 0, 0, 0, 5, 0, 0, 0, 0, 0, 1, 0,
     1, 8, 0, 0, 16, 0, 0, 0, 0, 0, 0, 0] 0 28 ⟨7, 5, 0, [⟨1, 8, 0, 16⟩]⟩ 32 (by decide)
  exact h.2.2.2.2.2.2.2.2

/-! ## C10: the operand parser strictly advances the iterator -/

/-- C10.  Whenever `parseOperand` returns (rather than aborting), the
returned iterator is strictly beyond its argument and within the operand
range — by exactly 1 operand for register and register-live-out-mask
operands, 2 for `ConstantOp`, 3 for `DirectMemRefOp` and 4 for
`IndirectMemRefOp` — which is the measure by which the operand-parsing loop
of `recordStackMapOpers` (`parseOperandsLoop`, a total function defined by
recursion on that measure) terminates on every finite operand range. -/
theorem C10_parseOperand_strict (tri : TRI) (ptrSizeBits : Nat)
    (ops : List MachineOperand) (i : Nat) (Locs : List Location)
    (LiveOuts : List LiveOutReg) (L2 : List Location) (LO2 : List LiveOutReg)
    (i2 : Nat) (h : parseOperand tri ptrSizeBits ops i Locs LiveOuts = some (L2, LO2, i2)) :
    i < i2 ∧ i2 ≤ ops.length ∧
    (∀ r d impl sub, ops.get? i = some (MachineOperand.Reg r d impl sub) → i2 = i + 1) ∧
    (∀ mask, ops.get? i = some (MachineOperand.RegLiveOut mask) → i2 = i + 1) ∧
    (ops.get? i = some (MachineOperand.Imm ConstantOp) → i2 = i + 2) ∧
    (ops.get? i = some (MachineOperand.Imm DirectMemRefOp) → i2 = i + 3) ∧
    (ops.get? i = some (MachineOperand.Imm IndirectMemRefOp) → i2 = i + 4) := by
  obtain ⟨hi, hlt, hle⟩ :=
    parseOperand_advances tri ptrSizeBits ops i Locs LiveOuts (L2, LO2, i2) h
  refine ⟨hlt, hle, ?_, ?_, ?_, ?_, ?_⟩ <;> rw [parseOperand] at h <;> split at h
  -- register-operand implication, by the arm that produced the result
  · exact absurd h (by simp)
  · rename_i v hop
    exact fun r d impl sub h2 => absurd (hop.symm.trans h2) (by simp)
  · rename_i r0 d0 impl0 sub0 hop
    intro r d impl sub h2
    split_ifs at h with hA hB hC <;>
      first
        | exact (congrArg (fun t => t.2.2) (Option.some.inj h)).symm
        | exact absurd h (by simp)
  · rename_i mask hop
    exact fun r d impl sub h2 => absurd (hop.symm.trans h2) (by simp)
  -- live-out-mask implication
  · exact absurd h (by simp)
  · rename_i v hop
    exact fun mask h2 => absurd (hop.symm.trans h2) (by simp)
  · rename_i r0 d0 impl0 sub0 hop
    exact fun mask h2 => absurd (hop.symm.trans h2) (by simp)
  · rename_i mask0 hop
    exact fun mask h2 => (congrArg (fun t => t.2.2) (Option.some.inj h)).symm
  -- ConstantOp implication
  · exact absurd h (by simp)
  · rename_i v hop
    intro h2
    have hv : v = ConstantOp := by
      have h3 := hop.symm.trans h2
      simpa using h3
    subst hv
    rw [if_neg (by decide), if_neg (by decide), if_pos rfl] at h
    split at h
    · exact (congrArg (fun t => t.2.2) (Option.some.inj h)).symm
    · exact absurd h (by simp)
  · rename_i r0 d0 impl0 sub0 hop
    exact fun h2 => absurd (hop.symm.trans h2) (by simp)
  · rename_i mask0 hop
    exact fun h2 => absurd (hop.symm.trans h2) (by simp)
  -- DirectMemRefOp implication
  · exact absurd h (by simp)
  · rename_i v hop
    intro h2
    have hv : v = DirectMemRefOp := by
      have h3 := hop.symm.trans h2
      simpa using h3
    subst hv
    rw [if_pos rfl] at h
    by_cases hp : ptrSizeBits % 8 = 0
    · rw [if_pos hp] at h
      dsimp only at h
      split at h
      · exact (congrArg (fun t => t.2.2) (Option.some.inj h)).symm
      · exact absurd h (by simp)
    · rw [if_neg hp] at h
      exact absurd h (by simp)
  · rename_i r0 d0 impl0 sub0 hop
    exact fun h2 => absurd (hop.symm.trans h2) (by simp)
  · rename_i mask0 hop
    exact fun h2 => absurd (hop.symm.trans h2) (by simp)
  -- IndirectMemRefOp implication
  · exact absurd h (by simp)
  · rename_i v hop
    intro h2
    have hv : v = IndirectMemRefOp := by
      have h3 := hop.symm.trans h2
      simpa using h3
    subst hv
    rw [if_neg (by decide), if_pos rfl] at h
    split at h
    · split at h
      · exact (congrArg (fun t => t.2.2) (Option.some.inj h)).symm
      · exact absurd h (by simp)
    · exact absurd h (by simp)
  · rename_i r0 d0 impl0 sub0 hop
    exact fun h2 => absurd (hop.symm.trans h2) (by simp)
  · rename_i mask0 hop
    exact fun h2 => absurd (hop.symm.trans h2) (by simp)

/-- Witness for C10 at a concrete operand stream: parsing the `ConstantOp`
pair at index 0 of `[Imm ConstantOp, Imm 42]` advances the iterator to 2. -/
theorem C10_witness :
    (0 : Nat) < 2 ∧ (2 : Nat) ≤ List.length [MachineOperand.Imm ConstantOp,
        MachineOperand.Imm 42] ∧
    (∀ r d impl sub, [MachineOperand.Imm ConstantOp, MachineOperand.Imm 42].get? 0 =
        some (MachineOperand.Reg r d impl sub) → (2 : Nat) = 0 + 1) ∧
    (∀ mask, [MachineOperand.Imm ConstantOp, MachineOperand.Imm 42].get? 0 =
        some (MachineOperand.RegLiveOut mask) → (2 : Nat) = 0 + 1) ∧
    ([MachineOperand.Imm ConstantOp, MachineOperand.Imm 42].get? 0 =
        some (MachineOperand.Imm ConstantOp) → (2 : Nat) = 0 + 2) ∧
    ([MachineOperand.Imm ConstantOp, MachineOperand.Imm 42].get? 0 =
        some (MachineOperand.Imm DirectMemRefOp) → (2 : Nat) = 0 + 3) ∧
    ([MachineOperand.Imm ConstantOp, MachineOperand.Imm 42].get? 0 =
        some (MachineOperand.Imm IndirectMemRefOp) → (2 : Nat) = 0 + 4) :=
  C10_parseOperand_strict triW 64 [MachineOperand.Imm ConstantOp, MachineOperand.Imm 42]
    0 [] [] [⟨LocationKind.Constant, 8, 0, 42⟩] [] 2 (by decide)

/-! ## C2: constant locations after recording -/

theorem parseOperand_locs (tri : TRI) (ptrSizeBits : Nat)
    (ops : List MachineOperand) (i : Nat) (Locs : List Location)
    (LiveOuts : List LiveOutReg) (L2 : List Location) (LO2 : List LiveOutReg)
    (i2 : Nat) (h : parseOperand tri ptrSizeBits ops i Locs LiveOuts = some (L2, LO2, i2)) :
    ∀ l ∈ L2, l ∈ Locs ∨ l.LocType ≠ LocationKind.ConstantIndex := by
  rw [parseOperand] at h
  split at h
  · exact absurd h (by simp)
  · rename_i v hop
    by_cases h1 : v = DirectMemRefOp
    · rw [if_pos h1] at h
      by_cases h2 : ptrSizeBits % 8 = 0
      · rw [if_pos h2] at h
        dsimp only at h
        split at h
        · have hL : L2 = Locs ++
              [⟨LocationKind.Direct, ptrSizeBits / 8, getDwarfRegNum tri _, _⟩] :=
            (congrArg (fun t => t.1) (Option.some.inj h)).symm
          subst hL
          intro l hl
          rcases List.mem_append.mp hl with hl | hl
          · exact Or.inl hl
          · right
            rw [List.mem_singleton.mp hl]
            simp
        · exact absurd h (by simp)
      · rw [if_neg h2] at h
        exact absurd h (by simp)
    · rw [if_neg h1] at h
      by_cases h2 : v = IndirectMemRefOp
      · rw [if_pos h2] at h
        split at h
        · split at h
          · have hL : L2 = Locs ++ [⟨LocationKind.Indirect, _, getDwarfRegNum tri _, _⟩] :=
              (congrArg (fun t => t.1) (Option.some.inj h)).symm
            subst hL
            intro l hl
            rcases List.mem_append.mp hl with hl | hl
            · exact Or.inl hl
            · right
              rw [List.mem_singleton.mp hl]
              simp
          · exact absurd h (by simp)
        · exact absurd h (by simp)
      · rw [if_neg h2] at h
        by_cases h3 : v = ConstantOp
        · rw [if_pos h3] at h
          split at h
          · have hL : L2 = Locs ++ [⟨LocationKind.Constant, 8, 0, _⟩] :=
              (congrArg (fun t => t.1) (Option.some.inj h)).symm
            subst hL
            intro l hl
            rcases List.mem_append.mp hl with hl | hl
            · exact Or.inl hl
            · right
              rw [List.mem_singleton.mp hl]
              simp
          · exact absurd h (by simp)
        · rw [if_neg h3] at h
          exact absurd h (by simp)
  · rename_i r0 d0 impl0 sub0 hop
    by_cases hA : impl0 = true
    · rw [if_pos hA] at h
      have hL : L2 = Locs := (congrArg (fun t => t.1) (Option.some.inj h)).symm
      subst hL
      exact fun l hl => Or.inl hl
    · rw [if_neg hA] at h
      by_cases hB : isPhysicalRegister r0 = true
      · rw [if_pos hB] at h
        by_cases hC : sub0 = 0
        · rw [if_pos hC] at h
          dsimp only at h
          have hL : L2 = Locs ++
              [⟨LocationKind.Register, tri.classSize r0, getDwarfRegNum tri r0, _⟩] :=
            (congrArg (fun t => t.1) (Option.some.inj h)).symm
          subst hL
          intro l hl
          rcases List.mem_append.mp hl with hl | hl
          · exact Or.inl hl
          · right
            rw [List.mem_singleton.mp hl]
            simp
        · rw [if_neg hC] at h
          exact absurd h (by simp)
      · rw [if_neg hB] at h
        exact absurd h (by simp)
  · rename_i mask0 hop
    have hL : L2 = Locs := (congrArg (fun t => t.1) (Option.some.inj h)).symm
    subst hL
    exact fun l hl => Or.inl hl

theorem parseOperandsLoop_locs (tri : TRI) (ptrSizeBits : Nat)
    (ops : List MachineOperand) :
    ∀ (fuel i : Nat) (Locs : List Location) (LiveOuts : List LiveOutReg)
      (out : List Location × List LiveOutReg),
      ops.length ≤ i + fuel →
      parseOperandsLoop tri ptrSizeBits ops i Locs LiveOuts = some out →
      ∀ l ∈ out.1, l ∈ Locs ∨ l.LocType ≠ LocationKind.ConstantIndex := by
  intro fuel
  induction fuel with
  | zero =>
    intro i Locs LiveOuts out hf h
    rw [parseOperandsLoop] at h
    by_cases hil : i = ops.length
    · rw [if_pos hil] at h
      have hout : out = (Locs, LiveOuts) := (Option.some.inj h).symm
      subst hout
      exact fun l hl => Or.inl hl
    · rw [if_neg hil] at h
      split at h
      · exact absurd h (by simp)
      · rename_i res hres
        obtain ⟨hi, -, -⟩ := parseOperand_advances tri ptrSizeBits ops i Locs LiveOuts res hres
        omega
  | succ n ih =>
    intro i Locs LiveOuts out hf h
    rw [parseOperandsLoop] at h
    by_cases hil : i = ops.length
    · rw [if_pos hil] at h
      have hout : out = (Locs, LiveOuts) := (Option.some.inj h).symm
      subst hout
      exact fun l hl => Or.inl hl
    · rw [if_neg hil] at h
      split at h
      · exact absurd h (by simp)
      · rename_i res hres
        obtain ⟨hi, hlt, hle⟩ :=
          parseOperand_advances tri ptrSizeBits ops i Locs LiveOuts res hres
        have hmem := parseOperand_locs tri ptrSizeBits ops i Locs LiveOuts
          res.1 res.2.1 res.2.2 hres
        intro l hl
        rcases ih res.2.2 res.1 res.2.1 out (by omega) h l hl with hmem2 | hne
        · exact hmem l hmem2
        · exact Or.inr hne

theorem constPoolInsert_self_append (pool : List Nat) (key : Nat) :
    ∃ e, (constPoolInsert pool key).1 = pool ++ e := by
  induction pool with
  | nil => exact ⟨[key], rfl⟩
  | cons p ps ih =>
    unfold constPoolInsert
    by_cases hp : (p == key) = true
    · rw [if_pos hp]
      exact ⟨[], by simp⟩
    · rw [if_neg hp]
      obtain ⟨e, he⟩ := ih
      exact ⟨e, by simp [he]⟩

theorem constPoolInsert_get (pool : List Nat) (key : Nat) :
    (constPoolInsert pool key).2 < (constPoolInsert pool key).1.length ∧
    (constPoolInsert pool key).1.getD (constPoolInsert pool key).2 0 = key := by
  induction pool with
  | nil => exact ⟨by simp [constPoolInsert], by simp [constPoolInsert]⟩
  | cons p ps ih =>
    unfold constPoolInsert
    by_cases hp : (p == key) = true
    · rw [if_pos hp]
      exact ⟨by simp, by simpa using beq_iff_eq.mp hp⟩
    · rw [if_neg hp]
      dsimp only
      refine ⟨by simpa using Nat.succ_lt_succ ih.1, ?_⟩
      simpa using ih.2

theorem promoteConstants_length (ls : List Location) :
    ∀ pool, (promoteConstants ls pool).1.length = ls.length := by
  induction ls with
  | nil => intro pool; rfl
  | cons l rest ih =>
    intro pool
    unfold promoteConstants
    split_ifs with hc <;> simp [ih]

theorem promoteConstants_pool_append (ls : List Location) :
    ∀ pool, ∃ e, (promoteConstants ls pool).2 = pool ++ e := by
  induction ls with
  | nil => exact fun pool => ⟨[], by simp [promoteConstants]⟩
  | cons l rest ih =>
    intro pool
    unfold promoteConstants
    split_ifs with hc
    · dsimp only
      obtain ⟨e1, he1⟩ := constPoolInsert_self_append pool (toU64 l.Offset)
      obtain ⟨e2, he2⟩ := ih (constPoolInsert pool (toU64 l.Offset)).1
      exact ⟨e1 ++ e2, by rw [he2, he1, List.append_assoc]⟩
    · exact ih pool

theorem promoteConstants_spec (ls : List Location) :
    ∀ (pool : List Nat) (i : Nat), i < ls.length →
      ((¬((ls.getD i default).LocType = LocationKind.Constant ∧
          ¬ isInt32 (ls.getD i default).Offset)) →
        (promoteConstants ls pool).1.getD i default = ls.getD i default) ∧
      (((ls.getD i default).LocType = LocationKind.Constant ∧
          ¬ isInt32 (ls.getD i default).Offset) →
        ∃ idx : Nat,
          (promoteConstants ls pool).1.getD i default =
            { (ls.getD i default) with
              LocType := LocationKind.ConstantIndex
              Offset := (idx : Int) } ∧
          idx < (promoteConstants ls pool).2.length ∧
          (promoteConstants ls pool).2.getD idx 0 = toU64 (ls.getD i default).Offset) := by
  induction ls with
  | nil => intro pool i hi; exact absurd hi (by simp)
  | cons l rest ih =>
    intro pool i hi
    by_cases hc : l.LocType = LocationKind.Constant ∧ ¬ isInt32 l.Offset
    · have hpc : promoteConstants (l :: rest) pool =
          ({ l with
             LocType := LocationKind.ConstantIndex
             Offset := ((constPoolInsert pool (toU64 l.Offset)).2 : Int) } ::
            (promoteConstants rest (constPoolInsert pool (toU64 l.Offset)).1).1,
           (promoteConstants rest (constPoolInsert pool (toU64 l.Offset)).1).2) := by
        conv_lhs => rw [promoteConstants]
        rw [if_pos hc]
      cases i with
      | zero =>
        constructor
        · intro hnot
          exact absurd hc (by simpa using hnot)
        · intro _
          refine ⟨(constPoolInsert pool (toU64 l.Offset)).2, ?_, ?_, ?_⟩
          · rw [hpc]
            simp
          · obtain ⟨e, he⟩ :=
              promoteConstants_pool_append rest (constPoolInsert pool (toU64 l.Offset)).1
            rw [hpc]
            dsimp only
            rw [he, List.length_append]
            have := (constPoolInsert_get pool (toU64 l.Offset)).1
            omega
          · obtain ⟨e, he⟩ :=
              promoteConstants_pool_append rest (constPoolInsert pool (toU64 l.Offset)).1
            rw [hpc]
            dsimp only
            rw [he, List.getD_append _ _ _ _ (constPoolInsert_get pool (toU64 l.Offset)).1]
            simpa using (constPoolInsert_get pool (toU64 l.Offset)).2
      | succ j =>
        have hj : j < rest.length := by simpa using hi
        have := ih (constPoolInsert pool (toU64 l.Offset)).1 j hj
        rw [hpc]
        simpa using this
    · have hpc : promoteConstants (l :: rest) pool =
          (l :: (promoteConstants rest pool).1, (promoteConstants rest pool).2) := by
        conv_lhs => rw [promoteConstants]
        rw [if_neg hc]
      cases i with
      | zero =>
        constructor
        · intro _
          rw [hpc]
          simp
        · intro hyes
          exact absurd (by simpa using hyes) hc
      | succ j =>
        have hj : j < rest.length := by simpa using hi
        have := ih pool j hj
        rw [hpc]
        simpa using this

theorem parseOperandsLoop_done (tri : TRI) (ptrSizeBits : Nat)
    (ops : List MachineOperand) (i : Nat) (Locs : List Location)
    (LiveOuts : List LiveOutReg) (he : i = ops.length) :
    parseOperandsLoop tri ptrSizeBits ops i Locs LiveOuts = some (Locs, LiveOuts) := by
  rw [parseOperandsLoop, if_pos he]

theorem parseOperandsLoop_step (tri : TRI) (ptrSizeBits : Nat)
    (ops : List MachineOperand) (i : Nat) (Locs : List Location)
    (LiveOuts : List LiveOutReg) (res : List Location × List LiveOutReg × Nat)
    (hne : ¬ i = ops.length)
    (h : parseOperand tri ptrSizeBits ops i Locs LiveOuts = some res) :
    parseOperandsLoop tri ptrSizeBits ops i Locs LiveOuts =
      parseOperandsLoop tri ptrSizeBits ops res.2.2 res.1 res.2.1 := by
  rw [parseOperandsLoop, if_neg hne]
  split
  · rename_i heq
    rw [heq] at h
    exact absurd h (by simp)
  · rename_i r heq
    have hre : r = res := Option.some.inj (heq.symm.trans h)
    rw [hre]

/-- C2.  After `recordStackMapOpers` succeeds, the call site just recorded
(appended to `CSInfos`) satisfies: every location of kind Constant has an
offset inside the signed 32-bit range, and every location of kind
ConstantIndex has a nonnegative offset that indexes into the constant pool,
where the pool holds exactly the u64 cast of the original 64-bit constant
that was promoted at that position. -/
theorem C2_record_constants (tri : TRI) (ptrSizeBits : Nat) (st : StackMapsState)
    (MILabelExpr ID : Nat) (ops : List MachineOperand) (startIdx : Nat)
    (recordResult : Bool) (CurrentFnSym : Nat) (DynamicFrameSize : Bool)
    (StackSizeVal : Nat) (st' : StackMapsState)
    (hrec : recordStackMapOpers tri ptrSizeBits st MILabelExpr ID ops startIdx
      recordResult CurrentFnSym DynamicFrameSize StackSizeVal = some st') :
    ∃ csi locs0,
      st'.CSInfos = st.CSInfos ++ [csi] ∧
      csi.Locations = (promoteConstants locs0 st.ConstPool).1 ∧
      st'.ConstPool = (promoteConstants locs0 st.ConstPool).2 ∧
      csi.Locations.length = locs0.length ∧
      ∀ i, i < locs0.length →
        ((csi.Locations.getD i default).LocType = LocationKind.Constant →
          isInt32 (csi.Locations.getD i default).Offset) ∧
        ((csi.Locations.getD i default).LocType = LocationKind.ConstantIndex →
          (locs0.getD i default).LocType = LocationKind.Constant ∧
          ¬ isInt32 (locs0.getD i default).Offset ∧
          0 ≤ (csi.Locations.getD i default).Offset ∧
          (csi.Locations.getD i default).Offset.toNat < st'.ConstPool.length ∧
          st'.ConstPool.getD (csi.Locations.getD i default).Offset.toNat 0 =
            toU64 (locs0.getD i default).Offset) := by
  unfold recordStackMapOpers at hrec
  simp only [Option.bind_eq_bind] at hrec
  have main : ∀ init : List Location × List LiveOutReg,
      (∀ l ∈ init.1, l.LocType ≠ LocationKind.ConstantIndex) →
      ((parseOperandsLoop tri ptrSizeBits ops startIdx init.1 init.2).bind fun d =>
        some { CSInfos := st.CSInfos ++ [⟨MILabelExpr, ID, (promoteConstants d.1 st.ConstPool).1, d.2⟩], ConstPool := (promoteConstants d.1 st.ConstPool).2, FnStackSize := fnStackSizeSet st.FnStackSize CurrentFnSym (if DynamicFrameSize then UINT64MAX else StackSizeVal) }) = some st' →
      ∃ csi locs0,
        st'.CSInfos = st.CSInfos ++ [csi] ∧
        csi.Locations = (promoteConstants locs0 st.ConstPool).1 ∧
        st'.ConstPool = (promoteConstants locs0 st.ConstPool).2 ∧
        csi.Locations.length = locs0.length ∧
        ∀ i, i < locs0.length →
          ((csi.Locations.getD i default).LocType = LocationKind.Constant →
            isInt32 (csi.Locations.getD i default).Offset) ∧
          ((csi.Locations.getD i default).LocType = LocationKind.ConstantIndex →
            (locs0.getD i default).LocType = LocationKind.Constant ∧
            ¬ isInt32 (locs0.getD i default).Offset ∧
            0 ≤ (csi.Locations.getD i default).Offset ∧
            (csi.Locations.getD i default).Offset.toNat < st'.ConstPool.length ∧
            st'.ConstPool.getD (csi.Locations.getD i default).Offset.toNat 0 =
              toU64 (locs0.getD i default).Offset) := by
    intro init hinitL hbind
    rcases hloop : parseOperandsLoop tri ptrSizeBits ops startIdx init.1 init.2
      with _ | pr
    · rw [hloop] at hbind
      exact absurd hbind (by simp)
    rw [hloop, Option.some_bind] at hbind
    obtain ⟨L, LO⟩ := pr
    dsimp only at hbind
    have hst : st' =
        { CSInfos := st.CSInfos ++
            [⟨MILabelExpr, ID, (promoteConstants L st.ConstPool).1, LO⟩],
          ConstPool := (promoteConstants L st.ConstPool).2,
          FnStackSize := fnStackSizeSet st.FnStackSize CurrentFnSym
            (if DynamicFrameSize then UINT64MAX else StackSizeVal) } :=
      (Option.some.inj hbind).symm
    subst hst
    have hnoCI : ∀ l ∈ L, l.LocType ≠ LocationKind.ConstantIndex := by
      intro l hl
      rcases parseOperandsLoop_locs tri ptrSizeBits ops ops.length startIdx
        init.1 init.2 (L, LO) (by omega) hloop l hl with h1 | h2
      · exact hinitL l h1
      · exact h2
    refine ⟨⟨MILabelExpr, ID, (promoteConstants L st.ConstPool).1, LO⟩, L,
      rfl, rfl, rfl, promoteConstants_length L st.ConstPool, ?_⟩
    intro i hi
    obtain ⟨hno, hyes⟩ := promoteConstants_spec L st.ConstPool i hi
    dsimp only
    constructor
    · intro hkind
      by_cases hc : (L.getD i default).LocType = LocationKind.Constant ∧
          ¬ isInt32 (L.getD i default).Offset
      · obtain ⟨idx, heq, -, -⟩ := hyes hc
        rw [heq] at hkind
        exact absurd hkind (by simp)
      · have heq := hno hc
        rw [heq] at hkind ⊢
        by_cases hint : isInt32 (L.getD i default).Offset
        · exact hint
        · exact absurd ⟨hkind, hint⟩ hc
    · intro hkind
      by_cases hc : (L.getD i default).LocType = LocationKind.Constant ∧
          ¬ isInt32 (L.getD i default).Offset
      · obtain ⟨idx, heq, hlt, hval⟩ := hyes hc
        refine ⟨hc.1, hc.2, ?_, ?_, ?_⟩
        · rw [heq]
          simp
        · rw [heq]
          simpa using hlt
        · rw [heq]
          simpa using hval
      · have heq := hno hc
        rw [heq] at hkind
        have hmem : L.getD i default ∈ L := by
          rw [List.getD_eq_getElem _ _ hi]
          exact List.getElem_mem _
        exact absurd hkind (hnoCI _ hmem)
  cases hr : recordResult with
  | false =>
    rw [hr] at hrec
    simp only [Bool.false_eq_true, if_false, Option.some_bind] at hrec
    exact main ([], []) (by intro l hl; exact absurd hl (by simp)) hrec
  | true =>
    rw [hr] at hrec
    rw [if_pos rfl] at hrec
    rcases hpo : parseOperand tri ptrSizeBits ops 0 [] [] with _ | r
    · rw [hpo] at hrec
      exact absurd hrec (by simp)
    · rw [hpo] at hrec
      simp only [Option.map_some', Option.some_bind] at hrec
      refine main (r.1, r.2.1) ?_ hrec
      intro l hl
      rcases parseOperand_locs tri ptrSizeBits ops 0 [] [] r.1 r.2.1 r.2.2
        (by exact hpo) l hl with h1 | h2
      · exact absurd h1 (by simp)
      · exact h2

/-- Witness for C2: recording a single `ConstantOp` with the out-of-range
value 2^32 against an empty writer state promotes it to ConstantIndex 0
with the value pooled. -/
theorem C2_witness :
    ∃ csi locs0,
      [(⟨7, 9, [⟨LocationKind.ConstantIndex, 8, 0, 0⟩], []⟩ : CallSiteInfo)] =
        ([] : List CallSiteInfo) ++ [csi] ∧
      csi.Locations = (promoteConstants locs0 ([] : List Nat)).1 ∧
      [4294967296] = (promoteConstants locs0 ([] : List Nat)).2 ∧
      csi.Locations.length = locs0.length ∧
      ∀ i, i < locs0.length →
        ((csi.Locations.getD i default).LocType = LocationKind.Constant →
          isInt32 (csi.Locations.getD i default).Offset) ∧
        ((csi.Locations.getD i default).LocType = LocationKind.ConstantIndex →
          (locs0.getD i default).LocType = LocationKind.Constant ∧
          ¬ isInt32 (locs0.getD i default).Offset ∧
          0 ≤ (csi.Locations.getD i default).Offset ∧
          (csi.Locations.getD i default).Offset.toNat < List.length [4294967296] ∧
          [4294967296].getD (csi.Locations.getD i default).Offset.toNat 0 =
            toU64 (locs0.getD i default).Offset) :=
  C2_record_constants triW 64 ⟨[], [], []⟩ 7 9
    [MachineOperand.Imm ConstantOp, MachineOperand.Imm 4294967296] 0 false 3 false 16
    ⟨[⟨7, 9, [⟨LocationKind.ConstantIndex, 8, 0, 0⟩], []⟩], [4294967296], [(3, 16)]⟩
    (by
      unfold recordStackMapOpers
      simp only [Option.bind_eq_bind, Bool.false_eq_true, if_false, Option.some_bind]
      rw [parseOperandsLoop_step triW 64
        [MachineOperand.Imm ConstantOp, MachineOperand.Imm 4294967296] 0 [] []
        ([⟨LocationKind.Constant, 8, 0, 4294967296⟩], [], 2) (by decide) (by decide)]
      rw [parseOperandsLoop_done triW 64
        [MachineOperand.Imm ConstantOp, MachineOperand.Imm 4294967296] 2 _ _ (by decide)]
      simp only [Option.some_bind]
      decide)

/-! ## C1: live-out mask parsing.  Utilities on positional list access -/

theorem getD_set_self (l : List LiveOutReg) (i : Nat) (a d : LiveOutReg)
    (h : i < l.length) : (l.set i a).getD i d = a := by
  simp [List.getD_eq_getElem?_getD, List.getElem?_set_self, h]

theorem getD_set_ne (l : List LiveOutReg) (i k : Nat) (a d : LiveOutReg)
    (h : k ≠ i) : (l.set i a).getD k d = l.getD k d := by
  simp [List.getD_eq_getElem?_getD, List.getElem?_set_ne h.symm]

theorem filter_map_markInvalid (s : List LiveOutReg) :
    (s.map markInvalid).filter (fun lo => lo.valid) = [] := by
  induction s with
  | nil => rfl
  | cons x xs ih => simp [markInvalid, ih]

theorem filter_valid_eq_of_pointwise :
    ∀ (l' l : List LiveOutReg), l'.length = l.length →
      (∀ k, ((l'.getD k default).valid = (l.getD k default).valid ∧
        ((l.getD k default).valid = true → l'.getD k default = l.getD k default))) →
      l'.filter (fun lo => lo.valid) = l.filter (fun lo => lo.valid) := by
  intro l'
  induction l' with
  | nil =>
    intro l hlen _
    rw [List.length_nil] at hlen
    rw [(List.length_eq_zero.mp hlen.symm)]
  | cons x xs ih =>
    intro l hlen hpt
    cases l with
    | nil => exact absurd hlen (by simp)
    | cons y ys =>
      have h0 := hpt 0
      simp only [List.getD_cons_zero] at h0
      have hrest : xs.filter (fun lo => lo.valid) = ys.filter (fun lo => lo.valid) := by
        refine ih ys (by simpa using hlen) fun k => ?_
        have := hpt (k + 1)
        simpa using this
      by_cases hv : y.valid = true
      · have hx : x = y := h0.2 hv
        subst hx
        simp only [List.filter_cons, hv, if_pos]
        rw [hrest]
      · have hxv : x.valid = false := by
          rw [h0.1]
          exact Bool.not_eq_true _ |>.mp hv
        have hyv : y.valid = false := Bool.not_eq_true _ |>.mp hv
        simp only [List.filter_cons, hxv, hyv, Bool.false_eq_true, if_false]
        exact hrest

/-! ## C1: mergeRun fold lemmas -/

theorem mergeRun_cons (tri : TRI) (x b : LiveOutReg) (run : List LiveOutReg) :
    mergeRun tri x (b :: run) = mergeRun tri (mergeStep tri x b) run := rfl

theorem mergeRun_RegNo (tri : TRI) :
    ∀ (run : List LiveOutReg) (x : LiveOutReg), (mergeRun tri x run).RegNo = x.RegNo := by
  intro run
  induction run with
  | nil => intro x; rfl
  | cons b rest ih =>
    intro x
    rw [mergeRun_cons]
    rw [ih (mergeStep tri x b)]
    rfl

theorem mergeRun_valid (tri : TRI) :
    ∀ (run : List LiveOutReg) (x : LiveOutReg), (mergeRun tri x run).valid = x.valid := by
  intro run
  induction run with
  | nil => intro x; rfl
  | cons b rest ih =>
    intro x
    rw [mergeRun_cons, ih (mergeStep tri x b)]
    rfl

theorem mergeRun_size (tri : TRI) :
    ∀ (run : List LiveOutReg) (x : LiveOutReg),
      ((mergeRun tri x run).Size = x.Size ∨
        (mergeRun tri x run).Size ∈ run.map (fun y => y.Size)) ∧
      x.Size ≤ (mergeRun tri x run).Size ∧
      ∀ s ∈ run.map (fun y => y.Size), s ≤ (mergeRun tri x run).Size := by
  intro run
  induction run with
  | nil =>
    intro x
    exact ⟨Or.inl rfl, Nat.le_refl _, fun s hs => absurd hs (by simp)⟩
  | cons b rest ih =>
    intro x
    rw [mergeRun_cons]
    obtain ⟨hmem, hx, hall⟩ := ih (mergeStep tri x b)
    have hstep : (mergeStep tri x b).Size = max x.Size b.Size := rfl
    refine ⟨?_, ?_, ?_⟩
    · rcases hmem with hm | hm
      · rw [hstep] at hm
        rcases max_choice x.Size b.Size with hc | hc
        · exact Or.inl (hm.trans hc)
        · exact Or.inr (by simp only [List.map_cons, List.mem_cons]; exact Or.inl (hm.trans hc))
      · exact Or.inr (by simp only [List.map_cons, List.mem_cons]; exact Or.inr hm)
    · have hle : x.Size ≤ (mergeStep tri x b).Size := by
        rw [hstep]; exact Nat.le_max_left _ _
      omega
    · intro s hs
      simp only [List.map_cons, List.mem_cons] at hs
      rcases hs with hsb | hs
      · have hle : b.Size ≤ (mergeStep tri x b).Size := by
          rw [hstep]; exact Nat.le_max_right _ _
        omega
      · exact hall s hs

theorem mergeStep_reg_pos (tri : TRI) (x b : LiveOutReg)
    (h : tri.isSuperRegister x.Reg b.Reg = true) : (mergeStep tri x b).Reg = b.Reg := by
  simp [mergeStep, h]

theorem mergeStep_reg_neg (tri : TRI) (x b : LiveOutReg)
    (h : ¬ tri.isSuperRegister x.Reg b.Reg = true) : (mergeStep tri x b).Reg = x.Reg := by
  simp [mergeStep, h]

theorem mergeRun_reg (tri : TRI) (R : List Nat)
    (htrans : ∀ a b c, a ∈ R → b ∈ R → c ∈ R →
      tri.isSuperRegister a b = true → tri.isSuperRegister b c = true →
      tri.isSuperRegister a c = true)
    (htotal : ∀ a b, a ∈ R → b ∈ R → a ≠ b →
      tri.isSuperRegister a b = true ∨ tri.isSuperRegister b a = true) :
    ∀ (run : List LiveOutReg) (x : LiveOutReg),
      (∀ r, (r = x.Reg ∨ r ∈ run.map (fun y => y.Reg)) → r ∈ R) →
      ((mergeRun tri x run).Reg = x.Reg ∨
        (mergeRun tri x run).Reg ∈ run.map (fun y => y.Reg)) ∧
      (∀ r, (r = x.Reg ∨ r ∈ run.map (fun y => y.Reg)) →
        r ≠ (mergeRun tri x run).Reg →
        tri.isSuperRegister r (mergeRun tri x run).Reg = true) := by
  intro run
  induction run with
  | nil =>
    intro x hR
    refine ⟨Or.inl rfl, ?_⟩
    intro r hr hne
    rcases hr with rfl | hr
    · exact absurd rfl hne
    · exact absurd hr (by simp)
  | cons b rest ih =>
    intro x hR
    rw [mergeRun_cons]
    have hR' : ∀ r, (r = (mergeStep tri x b).Reg ∨ r ∈ rest.map (fun y => y.Reg)) → r ∈ R := by
      intro r hr
      rcases hr with rfl | hr
      · by_cases hs : tri.isSuperRegister x.Reg b.Reg = true
        · rw [mergeStep_reg_pos tri x b hs]
          exact hR b.Reg (Or.inr (by simp))
        · rw [mergeStep_reg_neg tri x b hs]
          exact hR x.Reg (Or.inl rfl)
      · exact hR r (Or.inr (by simp only [List.map_cons, List.mem_cons]; exact Or.inr hr))
    obtain ⟨hmem, hsup⟩ := ih (mergeStep tri x b) hR'
    have hxR : x.Reg ∈ R := hR x.Reg (Or.inl rfl)
    have hbR : b.Reg ∈ R := hR b.Reg (Or.inr (by simp))
    have hresR : (mergeRun tri (mergeStep tri x b) rest).Reg ∈ R := by
      rcases hmem with hm | hm
      · rw [hm]; exact hR' _ (Or.inl rfl)
      · exact hR' _ (Or.inr hm)
    constructor
    · rcases hmem with hm | hm
      · by_cases hs : tri.isSuperRegister x.Reg b.Reg = true
        · rw [mergeStep_reg_pos tri x b hs] at hm
          exact Or.inr (by simp only [List.map_cons, List.mem_cons]; exact Or.inl hm)
        · rw [mergeStep_reg_neg tri x b hs] at hm
          exact Or.inl hm
      · exact Or.inr (by simp only [List.map_cons, List.mem_cons]; exact Or.inr hm)
    · intro r hr hne
      rcases hr with rfl | hr
      · by_cases hcase : x.Reg = (mergeStep tri x b).Reg
        · exact hsup x.Reg (Or.inl hcase) hne
        · have hs : tri.isSuperRegister x.Reg b.Reg = true := by
            by_cases hxs : tri.isSuperRegister x.Reg b.Reg = true
            · exact hxs
            · exact absurd (mergeStep_reg_neg tri x b hxs).symm hcase
          have hstep := mergeStep_reg_pos tri x b hs
          by_cases hbres : b.Reg = (mergeRun tri (mergeStep tri x b) rest).Reg
          · rw [← hbres]
            exact hs
          · have hbsup := hsup (mergeStep tri x b).Reg (Or.inl rfl)
              (by rw [hstep]; exact hbres)
            rw [hstep] at hbsup
            exact htrans x.Reg b.Reg _ hxR hbR hresR hs hbsup
      · simp only [List.map_cons, List.mem_cons] at hr
        rcases hr with hr | hr
        · subst hr
          by_cases hcase : b.Reg = (mergeStep tri x b).Reg
          · exact hsup b.Reg (Or.inl hcase) hne
          · have hxs : ¬ tri.isSuperRegister x.Reg b.Reg = true := by
              intro hcon
              exact hcase (mergeStep_reg_pos tri x b hcon).symm
            have hstep := mergeStep_reg_neg tri x b hxs
            have hbne : b.Reg ≠ x.Reg := by
              intro hcon
              exact hcase (by rw [hstep, hcon])
            have hbs : tri.isSuperRegister b.Reg x.Reg = true := by
              rcases htotal b.Reg x.Reg hbR hxR hbne with hc | hc
              · exact hc
              · exact absurd hc hxs
            by_cases hxres : x.Reg = (mergeRun tri (mergeStep tri x b) rest).Reg
            · rw [← hxres]
              exact hbs
            · have hxsup := hsup (mergeStep tri x b).Reg (Or.inl rfl)
                (by rw [hstep]; exact hxres)
              rw [hstep] at hxsup
              exact htrans b.Reg x.Reg _ hbR hxR hresR hbs hxsup
        · exact hsup r (Or.inr hr) hne

/-! ## C1: runEnd and seg lemmas -/

theorem runEnd_eq_of_ge (l : List LiveOutReg) (v j : Nat) (h : ¬ j < l.length) :
    runEnd l v j = l.length := by
  rw [runEnd, dif_neg h]

theorem runEnd_eq_stop (l : List LiveOutReg) (v j : Nat) (h : j < l.length)
    (hne : (l.getD j default).RegNo ≠ v) : runEnd l v j = j := by
  rw [runEnd, dif_pos h, if_neg hne]

theorem runEnd_eq_cont (l : List LiveOutReg) (v j : Nat) (h : j < l.length)
    (heq : (l.getD j default).RegNo = v) : runEnd l v j = runEnd l v (j + 1) := by
  conv_lhs => rw [runEnd]
  rw [dif_pos h, if_pos heq]

theorem runEnd_bounds_aux (v : Nat) :
    ∀ (fuel : Nat) (l : List LiveOutReg) (j : Nat), l.length ≤ j + fuel →
      j ≤ l.length → j ≤ runEnd l v j ∧ runEnd l v j ≤ l.length := by
  intro fuel
  induction fuel with
  | zero =>
    intro l j h hj
    rw [runEnd_eq_of_ge l v j (by omega)]
    omega
  | succ n ih =>
    intro l j h hj
    by_cases hlt : j < l.length
    · by_cases heq : (l.getD j default).RegNo = v
      · rw [runEnd_eq_cont l v j hlt heq]
        have := ih l (j + 1) (by omega) (by omega)
        omega
      · rw [runEnd_eq_stop l v j hlt heq]
        omega
    · rw [runEnd_eq_of_ge l v j hlt]
      omega

theorem runEnd_ge (l : List LiveOutReg) (v j : Nat) (hj : j ≤ l.length) :
    j ≤ runEnd l v j :=
  (runEnd_bounds_aux v l.length l j (by omega) hj).1

theorem runEnd_le (l : List LiveOutReg) (v j : Nat) (hj : j ≤ l.length) :
    runEnd l v j ≤ l.length :=
  (runEnd_bounds_aux v l.length l j (by omega) hj).2

theorem runEnd_run_aux (v : Nat) :
    ∀ (fuel : Nat) (l : List LiveOutReg) (j : Nat), l.length ≤ j + fuel →
      ∀ k, j ≤ k → k < runEnd l v j → (l.getD k default).RegNo = v := by
  intro fuel
  induction fuel with
  | zero =>
    intro l j h k hk hk2
    rw [runEnd_eq_of_ge l v j (by omega)] at hk2
    omega
  | succ n ih =>
    intro l j h k hk hk2
    by_cases hlt : j < l.length
    · by_cases heq : (l.getD j default).RegNo = v
      · rw [runEnd_eq_cont l v j hlt heq] at hk2
        by_cases hkj : k = j
        · rw [hkj]; exact heq
        · exact ih l (j + 1) (by omega) k (by omega) hk2
      · rw [runEnd_eq_stop l v j hlt heq] at hk2
        omega
    · rw [runEnd_eq_of_ge l v j hlt] at hk2
      omega

theorem runEnd_run (l : List LiveOutReg) (v j : Nat) (k : Nat) (hk : j ≤ k)
    (hk2 : k < runEnd l v j) : (l.getD k default).RegNo = v :=
  runEnd_run_aux v l.length l j (by omega) k hk hk2

theorem runEnd_stop_aux (v : Nat) :
    ∀ (fuel : Nat) (l : List LiveOutReg) (j : Nat), l.length ≤ j + fuel →
      runEnd l v j < l.length → (l.getD (runEnd l v j) default).RegNo ≠ v := by
  intro fuel
  induction fuel with
  | zero =>
    intro l j h hlt
    rw [runEnd_eq_of_ge l v j (by omega)] at hlt ⊢
    omega
  | succ n ih =>
    intro l j h hlt
    by_cases hj : j < l.length
    · by_cases heq : (l.getD j default).RegNo = v
      · rw [runEnd_eq_cont l v j hj heq] at hlt ⊢
        exact ih l (j + 1) (by omega) hlt
      · rw [runEnd_eq_stop l v j hj heq] at hlt ⊢
        exact heq
    · rw [runEnd_eq_of_ge l v j hj] at hlt
      omega

theorem runEnd_stop (l : List LiveOutReg) (v j : Nat)
    (hlt : runEnd l v j < l.length) : (l.getD (runEnd l v j) default).RegNo ≠ v :=
  runEnd_stop_aux v l.length l j (by omega) hlt

theorem runEnd_congr_aux (v : Nat) :
    ∀ (fuel : Nat) (l l2 : List LiveOutReg) (j : Nat), l.length ≤ j + fuel →
      l2.length = l.length →
      (∀ k, j ≤ k → (l2.getD k default).RegNo = (l.getD k default).RegNo) →
      runEnd l2 v j = runEnd l v j := by
  intro fuel
  induction fuel with
  | zero =>
    intro l l2 j h hlen hpt
    rw [runEnd_eq_of_ge l v j (by omega), runEnd_eq_of_ge l2 v j (by omega), hlen]
  | succ n ih =>
    intro l l2 j h hlen hpt
    by_cases hj : j < l.length
    · by_cases heq : (l.getD j default).RegNo = v
      · rw [runEnd_eq_cont l v j hj heq,
          runEnd_eq_cont l2 v j (by omega) (by rw [hpt j (Nat.le_refl j)]; exact heq)]
        exact ih l l2 (j + 1) (by omega) hlen fun k hk => hpt k (by omega)
      · rw [runEnd_eq_stop l v j hj heq,
          runEnd_eq_stop l2 v j (by omega) (by rw [hpt j (Nat.le_refl j)]; exact heq)]
    · rw [runEnd_eq_of_ge l v j hj, runEnd_eq_of_ge l2 v j (by omega), hlen]

theorem runEnd_congr (l l2 : List LiveOutReg) (v j : Nat)
    (hlen : l2.length = l.length)
    (hpt : ∀ k, j ≤ k → (l2.getD k default).RegNo = (l.getD k default).RegNo) :
    runEnd l2 v j = runEnd l v j :=
  runEnd_congr_aux v l.length l l2 j (by omega) hlen hpt

theorem seg_len (l : List LiveOutReg) (j m : Nat) : (seg l j m).length = m - j := by
  simp [seg]

theorem seg_empty (l : List LiveOutReg) (j m : Nat) (h : m ≤ j) : seg l j m = [] := by
  rw [seg, Nat.sub_eq_zero_of_le h]
  rfl

theorem seg_cons (l : List LiveOutReg) (j m : Nat) (h : j < m) :
    seg l j m = l.getD j default :: seg l (j + 1) m := by
  have h1 : m - j = (m - (j + 1)) + 1 := by omega
  rw [seg, h1, List.range_succ_eq_map, List.map_cons, List.map_map, Nat.add_zero, seg]
  refine congrArg (l.getD j default :: ·) (List.map_congr_left fun t _ => ?_)
  show l.getD (j + (t + 1)) default = l.getD (j + 1 + t) default
  rw [show j + (t + 1) = j + 1 + t from by omega]

theorem seg_congr (l l2 : List LiveOutReg) (j m : Nat)
    (hpt : ∀ k, j ≤ k → k < m → l2.getD k default = l.getD k default) :
    seg l2 j m = seg l j m := by
  rw [seg, seg]
  refine List.map_congr_left fun t ht => ?_
  rw [List.mem_range] at ht
  exact hpt (j + t) (by omega) (by omega)

theorem seg_getElem (l : List LiveOutReg) (j m t : Nat)
    (h : t < (seg l j m).length) : (seg l j m).get ⟨t, h⟩ = l.getD (j + t) default := by
  simp [seg]

theorem seg_getD (l : List LiveOutReg) (j m t : Nat) (h : t < m - j) :
    (seg l j m).getD t default = l.getD (j + t) default := by
  rw [List.getD_eq_getElem _ default (by rw [seg_len]; omega)]
  simp [seg]

theorem seg_mem (l : List LiveOutReg) (j m : Nat) (y : LiveOutReg)
    (h : y ∈ seg l j m) : ∃ k, j ≤ k ∧ k < m ∧ y = l.getD k default := by
  rw [seg, List.mem_map] at h
  obtain ⟨t, ht, hy⟩ := h
  rw [List.mem_range] at ht
  exact ⟨j + t, by omega, by omega, hy.symm⟩

/-! ## C1: mergeRuns equations and the takeWhile decomposition -/

theorem mergeRuns_nil (tri : TRI) : mergeRuns tri [] = [] := by
  rw [mergeRuns]

theorem mergeRuns_cons (tri : TRI) (x : LiveOutReg) (xs : List LiveOutReg) :
    mergeRuns tri (x :: xs) =
      mergeRun tri x (xs.takeWhile fun y => x.RegNo == y.RegNo) ::
        mergeRuns tri (xs.dropWhile fun y => x.RegNo == y.RegNo) := by
  rw [mergeRuns]

theorem dropWhile_head_false (p : LiveOutReg → Bool) :
    ∀ (l : List LiveOutReg) (y : LiveOutReg) (ys : List LiveOutReg),
      l.dropWhile p = y :: ys → p y = false := by
  intro l
  induction l with
  | nil => intro y ys h; exact absurd h (by simp)
  | cons a as ih =>
    intro y ys h
    rw [List.dropWhile_cons] at h
    by_cases hp : p a = true
    · rw [if_pos hp] at h
      exact ih y ys h
    · rw [if_neg hp] at h
      injection h with h1 h2
      rw [← h1]
      exact Bool.not_eq_true _ |>.mp hp

theorem run_split_aux (v : Nat) :
    ∀ (fuel : Nat) (l : List LiveOutReg) (j : Nat), l.length ≤ j + fuel →
      j ≤ l.length →
      (l.drop j).takeWhile (fun y => v == y.RegNo) = seg l j (runEnd l v j) ∧
      (l.drop j).dropWhile (fun y => v == y.RegNo) = l.drop (runEnd l v j) := by
  intro fuel
  induction fuel with
  | zero =>
    intro l j h hj
    have hje : j = l.length := by omega
    rw [runEnd_eq_of_ge l v j (by omega), hje, List.drop_length]
    exact ⟨by rw [seg_empty _ _ _ (by omega)]; rfl, rfl⟩
  | succ n ih =>
    intro l j h hj
    by_cases hlt : j < l.length
    · have hdrop : l.drop j = l.getD j default :: l.drop (j + 1) := by
        rw [List.drop_eq_getElem_cons hlt, List.getD_eq_getElem l default hlt]
      by_cases heq : (l.getD j default).RegNo = v
      · have hpj : (v == (l.getD j default).RegNo) = true := by
          rw [heq]
          exact beq_self_eq_true v
        have hrE := runEnd_eq_cont l v j hlt heq
        have hge : j + 1 ≤ runEnd l v (j + 1) := runEnd_ge l v (j + 1) (by omega)
        obtain ⟨ht, hd⟩ := ih l (j + 1) (by omega) (by omega)
        constructor
        · rw [hdrop, List.takeWhile_cons, if_pos hpj, ht, hrE,
            seg_cons l j _ (by omega)]
        · rw [hdrop, List.dropWhile_cons, if_pos hpj, hd, hrE]
      · have hpj : (v == (l.getD j default).RegNo) = false := by
          rw [beq_eq_false_iff_ne]
          exact fun hc => heq hc.symm
        rw [runEnd_eq_stop l v j hlt heq]
        constructor
        · rw [hdrop, List.takeWhile_cons, hpj, seg_empty _ _ _ (by omega)]
          rfl
        · rw [hdrop, List.dropWhile_cons, hpj]
          rw [← hdrop]
          rfl
    · have hje : j = l.length := by omega
      rw [runEnd_eq_of_ge l v j (by omega), hje, List.drop_length]
      exact ⟨by rw [seg_empty _ _ _ (by omega)]; rfl, rfl⟩

theorem run_split (l : List LiveOutReg) (v : Nat) (j : Nat) (hj : j ≤ l.length) :
    (l.drop j).takeWhile (fun y => v == y.RegNo) = seg l j (runEnd l v j) ∧
    (l.drop j).dropWhile (fun y => v == y.RegNo) = l.drop (runEnd l v j) :=
  run_split_aux v l.length l j (by omega) hj

/-! ## C1: the inner merge loop collapses one run -/

theorem coalesceInner_spec_aux (tri : TRI) (i : Nat) :
    ∀ (fuel : Nat) (l : List LiveOutReg) (j : Nat), l.length ≤ j + fuel → i < j →
      ∀ (v m : Nat), v = (l.getD i default).RegNo → m = runEnd l v j →
      (coalesceInner tri l i j).2 = (if m < l.length then m else i + 1) ∧
      (coalesceInner tri l i j).1.getD i default
        = mergeRun tri (l.getD i default) (seg l j m) ∧
      (∀ k, j ≤ k → k < m →
        (coalesceInner tri l i j).1.getD k default = markInvalid (l.getD k default)) ∧
      (∀ k, k ≠ i → (k < j ∨ m ≤ k) →
        (coalesceInner tri l i j).1.getD k default = l.getD k default) := by
  intro fuel
  induction fuel with
  | zero =>
    intro l j h hij v m hv hm
    rw [coalesceInner, dif_neg (by omega)]
    have hmE : m = l.length := by rw [hm, runEnd_eq_of_ge l v j (by omega)]
    refine ⟨?_, ?_, ?_, ?_⟩
    · show i + 1 = if m < l.length then m else i + 1
      rw [if_neg (by omega)]
    · show l.getD i default = mergeRun tri (l.getD i default) (seg l j m)
      rw [seg_empty l j m (by omega)]
      rfl
    · intro k hk1 hk2
      omega
    · intro k _ _
      rfl
  | succ n ih =>
    intro l j h hij v m hv hm
    by_cases hj : j < l.length
    · by_cases hne : (l.getD i default).RegNo ≠ (l.getD j default).RegNo
      · rw [coalesceInner, dif_pos hj, if_pos hne]
        have hmE : m = j := by
          rw [hm]
          exact runEnd_eq_stop l v j hj (fun hc => hne (by rw [hc, hv]))
        refine ⟨?_, ?_, ?_, ?_⟩
        · show j = if m < l.length then m else i + 1
          rw [hmE, if_pos hj]
        · show l.getD i default = mergeRun tri (l.getD i default) (seg l j m)
          rw [hmE, seg_empty l j j (Nat.le_refl j)]
          rfl
        · intro k hk1 hk2
          omega
        · intro k _ _
          rfl
      · have heq : (l.getD i default).RegNo = (l.getD j default).RegNo := not_ne_iff.mp hne
        have hstep : coalesceInner tri l i j
            = coalesceInner tri ((l.set i (mergeStep tri (l.getD i default)
                (l.getD j default))).set j (markInvalid (l.getD j default))) i (j + 1) := by
          conv_lhs => rw [coalesceInner]
          rw [dif_pos hj, if_neg hne]
        have hlen2 : ((l.set i (mergeStep tri (l.getD i default)
            (l.getD j default))).set j (markInvalid (l.getD j default))).length = l.length := by
          simp [List.length_set]
        have hl2i : ((l.set i (mergeStep tri (l.getD i default)
            (l.getD j default))).set j (markInvalid (l.getD j default))).getD i default
            = mergeStep tri (l.getD i default) (l.getD j default) := by
          rw [getD_set_ne _ j i _ _ (by omega), getD_set_self _ i _ _ (by omega)]
        have hl2j : ((l.set i (mergeStep tri (l.getD i default)
            (l.getD j default))).set j (markInvalid (l.getD j default))).getD j default
            = markInvalid (l.getD j default) := by
          rw [getD_set_self _ j _ _ (by simp [List.length_set]; omega)]
        have hl2k : ∀ k, k ≠ i → k ≠ j →
            ((l.set i (mergeStep tri (l.getD i default)
              (l.getD j default))).set j (markInvalid (l.getD j default))).getD k default
            = l.getD k default := by
          intro k hki hkj
          rw [getD_set_ne _ j k _ _ hkj, getD_set_ne _ i k _ _ hki]
        have hv2 : v = (((l.set i (mergeStep tri (l.getD i default)
            (l.getD j default))).set j (markInvalid (l.getD j default))).getD i default).RegNo := by
          rw [hl2i]
          exact hv
        have hrE : runEnd ((l.set i (mergeStep tri (l.getD i default)
            (l.getD j default))).set j (markInvalid (l.getD j default))) v (j + 1)
            = runEnd l v (j + 1) :=
          runEnd_congr l _ v (j + 1) hlen2 fun k hk => by
            rw [hl2k k (by omega) (by omega)]
        have hmE : m = runEnd l v (j + 1) := by
          rw [hm]
          exact runEnd_eq_cont l v j hj (heq.symm.trans hv.symm)
        have hm1 : j + 1 ≤ m := by
          rw [hmE]
          exact runEnd_ge l v (j + 1) (by omega)
        obtain ⟨ih1, ih2, ih3, ih4⟩ := ih ((l.set i (mergeStep tri (l.getD i default)
            (l.getD j default))).set j (markInvalid (l.getD j default))) (j + 1)
            (by rw [hlen2]; omega) (by omega) v m hv2 (by rw [hrE]; exact hmE)
        refine ⟨?_, ?_, ?_, ?_⟩
        · rw [hstep, ih1, hlen2]
        · rw [hstep, ih2, hl2i,
            seg_congr l _ (j + 1) m (fun k hk1 hk2 => hl2k k (by omega) (by omega)),
            seg_cons l j m (by omega), mergeRun_cons]
        · intro k hk1 hk2
          by_cases hkj : k = j
          · rw [hstep, hkj]
            rw [ih4 j (by omega) (Or.inl (by omega)), hl2j]
          · rw [hstep, ih3 k (by omega) hk2, hl2k k (by omega) hkj]
        · intro k hki hk2
          rcases hk2 with hk2 | hk2
          · rw [hstep, ih4 k hki (Or.inl (by omega)), hl2k k hki (by omega)]
          · rw [hstep, ih4 k hki (Or.inr hk2), hl2k k hki (by omega)]
    · rw [coalesceInner, dif_neg hj]
      have hmE : m = l.length := by rw [hm, runEnd_eq_of_ge l v j (by omega)]
      refine ⟨?_, ?_, ?_, ?_⟩
      · show i + 1 = if m < l.length then m else i + 1
        rw [if_neg (by omega)]
      · show l.getD i default = mergeRun tri (l.getD i default) (seg l j m)
        rw [seg_empty l j m (by omega)]
        rfl
      · intro k hk1 hk2
        omega
      · intro k _ _
        rfl

theorem coalesceInner_spec (tri : TRI) (l : List LiveOutReg) (i j : Nat) (hij : i < j)
    (v m : Nat) (hv : v = (l.getD i default).RegNo) (hm : m = runEnd l v j) :
    (coalesceInner tri l i j).2 = (if m < l.length then m else i + 1) ∧
    (coalesceInner tri l i j).1.getD i default
      = mergeRun tri (l.getD i default) (seg l j m) ∧
    (∀ k, j ≤ k → k < m →
      (coalesceInner tri l i j).1.getD k default = markInvalid (l.getD k default)) ∧
    (∀ k, k ≠ i → (k < j ∨ m ≤ k) →
      (coalesceInner tri l i j).1.getD k default = l.getD k default) :=
  coalesceInner_spec_aux tri i l.length l j (by omega) hij v m hv hm

/-! ## C1: the outer merge loop -/

theorem coalesceOuter_stop (tri : TRI) (l : List LiveOutReg) (i : Nat)
    (h : ¬ i < l.length) : coalesceOuter tri l i = l := by
  rw [coalesceOuter, dif_neg h]

theorem coalesceOuter_step (tri : TRI) (l : List LiveOutReg) (i : Nat)
    (h : i < l.length) :
    coalesceOuter tri l i
      = coalesceOuter tri (coalesceInner tri l i (i + 1)).1
          (coalesceInner tri l i (i + 1)).2 := by
  conv_lhs => rw [coalesceOuter]
  rw [dif_pos h]

theorem getD_take (l : List LiveOutReg) (i k : Nat) (h : k < i) (h2 : k < l.length) :
    (l.take i).getD k default = l.getD k default := by
  rw [List.getD_eq_getElem _ default (by simp [List.length_take]; omega),
    List.getElem_take, List.getD_eq_getElem l default h2]

theorem take_decomp (l l2 : List LiveOutReg) (i m : Nat)
    (hlen : l2.length = l.length) (hi : i < l.length) (him : i < m) (hm : m ≤ l.length)
    (hrun : ∀ k, i + 1 ≤ k → k < m → l2.getD k default = markInvalid (l.getD k default))
    (hlo : ∀ k, k < i → l2.getD k default = l.getD k default) :
    l2.take m = l.take i ++ l2.getD i default :: (seg l (i + 1) m).map markInvalid := by
  refine List.ext_getElem ?_ ?_
  · simp only [List.length_take, List.length_append, List.length_cons, List.length_map,
      seg_len, hlen]
    omega
  · intro k h1 h2
    have hkl2 : k < l2.length := by simp [List.length_take] at h1; omega
    rw [List.getElem_take]
    rw [← List.getD_eq_getElem l2 default hkl2, ← List.getD_eq_getElem _ default h2]
    have hki : k < m := by simp [List.length_take, hlen] at h1; omega
    have htakelen : (l.take i).length = i := by simp [List.length_take]; omega
    by_cases hlt : k < i
    · rw [List.getD_append _ _ default k (by omega), getD_take l i k hlt (by omega),
        hlo k hlt]
    · rw [List.getD_append_right _ _ default k (by omega)]
      rw [htakelen]
      by_cases hke : k = i
      · rw [hke, Nat.sub_self, List.getD_cons_zero]
      · have hsub : k - i = (k - i - 1) + 1 := by omega
        rw [hsub, List.getD_cons_succ]
        have hb : k - i - 1 < ((seg l (i + 1) m).map markInvalid).length := by
          simp [seg_len]; omega
        rw [List.getD_eq_getElem _ default hb, List.getElem_map,
          ← List.getD_eq_getElem (seg l (i + 1) m) default (by rw [seg_len]; omega),
          seg_getD l (i + 1) m (k - i - 1) (by omega),
          show i + 1 + (k - i - 1) = k from by omega,
          hrun k (by omega) hki]

theorem drop_eq_of_pointwise (l l2 : List LiveOutReg) (m : Nat)
    (hlen : l2.length = l.length)
    (hpt : ∀ k, m ≤ k → k < l.length → l2.getD k default = l.getD k default) :
    l2.drop m = l.drop m := by
  refine List.ext_getElem (by simp [hlen]) ?_
  intro k h1 h2
  rw [List.getElem_drop, List.getElem_drop]
  have hb : m + k < l.length := by simp [hlen] at h1; omega
  rw [show l2[m + k] = l2.getD (m + k) default from
      (List.getD_eq_getElem l2 default (by omega)).symm,
    show l[m + k] = l.getD (m + k) default from
      (List.getD_eq_getElem l default (by omega)).symm]
  exact hpt (m + k) (by omega) hb

theorem coalesceOuter_invalid_aux (tri : TRI) :
    ∀ (fuel : Nat) (l : List LiveOutReg) (i : Nat), l.length ≤ i + fuel →
      (∀ k, i ≤ k → k < l.length → (l.getD k default).valid = false) →
      (coalesceOuter tri l i).filter (fun lo => lo.valid)
        = l.filter (fun lo => lo.valid) := by
  intro fuel
  induction fuel with
  | zero =>
    intro l i h hinv
    rw [coalesceOuter_stop tri l i (by omega)]
  | succ n ih =>
    intro l i h hinv
    by_cases hi : i < l.length
    · rw [coalesceOuter_step tri l i hi]
      obtain ⟨h2, hgi, hrun, hrest⟩ := coalesceInner_spec tri l i (i + 1) (by omega)
        (l.getD i default).RegNo (runEnd l (l.getD i default).RegNo (i + 1)) rfl rfl
      have hm1 : i + 1 ≤ runEnd l (l.getD i default).RegNo (i + 1) :=
        runEnd_ge l _ (i + 1) (by omega)
      have hmle : runEnd l (l.getD i default).RegNo (i + 1) ≤ l.length :=
        runEnd_le l _ (i + 1) (by omega)
      have hplen : (coalesceInner tri l i (i + 1)).1.length = l.length :=
        coalesceInner_length tri l i (i + 1)
      have hfilter : (coalesceInner tri l i (i + 1)).1.filter (fun lo => lo.valid)
          = l.filter (fun lo => lo.valid) := by
        refine filter_valid_eq_of_pointwise _ l hplen fun k => ?_
        by_cases hki : k = i
        · rw [hki, hgi, mergeRun_valid]
          refine ⟨rfl, fun hc => ?_⟩
          rw [hinv i (Nat.le_refl i) hi] at hc
          exact absurd hc (by simp)
        · by_cases hkrun : i + 1 ≤ k ∧ k < runEnd l (l.getD i default).RegNo (i + 1)
          · rw [hrun k hkrun.1 hkrun.2]
            refine ⟨?_, fun hc => ?_⟩
            · show false = (l.getD k default).valid
              rw [hinv k (by omega) (by omega)]
            · rw [hinv k (by omega) (by omega)] at hc
              exact absurd hc (by simp)
          · rw [hrest k hki (by omega)]
            exact ⟨rfl, fun _ => rfl⟩
      have hnext : ∀ k, (coalesceInner tri l i (i + 1)).2 ≤ k →
          k < (coalesceInner tri l i (i + 1)).1.length →
          ((coalesceInner tri l i (i + 1)).1.getD k default).valid = false := by
        intro k hk1 hk2
        rw [hplen] at hk2
        rw [h2] at hk1
        by_cases hmlt : runEnd l (l.getD i default).RegNo (i + 1) < l.length
        · rw [if_pos hmlt] at hk1
          rw [hrest k (by omega) (Or.inr hk1)]
          exact hinv k (by omega) hk2
        · rw [if_neg hmlt] at hk1
          rw [hrun k (by omega) (by omega)]
          rfl
      have hge : i + 1 ≤ (coalesceInner tri l i (i + 1)).2 := by
        rw [h2]
        by_cases hmlt : runEnd l (l.getD i default).RegNo (i + 1) < l.length
        · rw [if_pos hmlt]; omega
        · rw [if_neg hmlt]
      rw [ih (coalesceInner tri l i (i + 1)).1 (coalesceInner tri l i (i + 1)).2
        (by omega) hnext, hfilter]
    · rw [coalesceOuter_stop tri l i hi]

theorem coalesceOuter_invalid (tri : TRI) (l : List LiveOutReg) (i : Nat)
    (hinv : ∀ k, i ≤ k → k < l.length → (l.getD k default).valid = false) :
    (coalesceOuter tri l i).filter (fun lo => lo.valid)
      = l.filter (fun lo => lo.valid) :=
  coalesceOuter_invalid_aux tri l.length l i (by omega) hinv

theorem coalesceOuter_spec_aux (tri : TRI) :
    ∀ (fuel : Nat) (l : List LiveOutReg) (i : Nat), l.length ≤ i + fuel →
      (∀ k, i ≤ k → k < l.length → (l.getD k default).valid = true) →
      (coalesceOuter tri l i).filter (fun lo => lo.valid)
        = (l.take i).filter (fun lo => lo.valid) ++ mergeRuns tri (l.drop i) := by
  intro fuel
  induction fuel with
  | zero =>
    intro l i h hval
    rw [coalesceOuter_stop tri l i (by omega), List.drop_eq_nil_of_le (by omega),
      mergeRuns_nil, List.append_nil, List.take_of_length_le (by omega)]
  | succ n ih =>
    intro l i h hval
    by_cases hi : i < l.length
    · rw [coalesceOuter_step tri l i hi]
      obtain ⟨h2, hgi, hrun, hrest⟩ := coalesceInner_spec tri l i (i + 1) (by omega)
        (l.getD i default).RegNo (runEnd l (l.getD i default).RegNo (i + 1)) rfl rfl
      have hm1 : i + 1 ≤ runEnd l (l.getD i default).RegNo (i + 1) :=
        runEnd_ge l _ (i + 1) (by omega)
      have hmle : runEnd l (l.getD i default).RegNo (i + 1) ≤ l.length :=
        runEnd_le l _ (i + 1) (by omega)
      have hplen : (coalesceInner tri l i (i + 1)).1.length = l.length :=
        coalesceInner_length tri l i (i + 1)
      have htake : (coalesceInner tri l i (i + 1)).1.take
            (runEnd l (l.getD i default).RegNo (i + 1))
          = l.take i ++ (coalesceInner tri l i (i + 1)).1.getD i default ::
              (seg l (i + 1) (runEnd l (l.getD i default).RegNo (i + 1))).map markInvalid :=
        take_decomp l (coalesceInner tri l i (i + 1)).1 i
          (runEnd l (l.getD i default).RegNo (i + 1)) hplen hi (by omega) hmle
          (fun k hk1 hk2 => hrun k hk1 hk2)
          (fun k hk => hrest k (by omega) (Or.inl (by omega)))
      have hvalid_i : ((coalesceInner tri l i (i + 1)).1.getD i default).valid = true := by
        rw [hgi, mergeRun_valid]
        exact hval i (Nat.le_refl i) hi
      have hdropcons : l.drop i = l.getD i default :: l.drop (i + 1) := by
        rw [List.drop_eq_getElem_cons hi, List.getD_eq_getElem l default hi]
      obtain ⟨hsplit_t, hsplit_d⟩ := run_split l (l.getD i default).RegNo (i + 1) (by omega)
      have hmerge : mergeRuns tri (l.drop i)
          = mergeRun tri (l.getD i default)
              (seg l (i + 1) (runEnd l (l.getD i default).RegNo (i + 1))) ::
            mergeRuns tri (l.drop (runEnd l (l.getD i default).RegNo (i + 1))) := by
        rw [hdropcons, mergeRuns_cons, hsplit_t, hsplit_d]
      by_cases hmlt : runEnd l (l.getD i default).RegNo (i + 1) < l.length
      · rw [h2, if_pos hmlt]
        have hnext : ∀ k, runEnd l (l.getD i default).RegNo (i + 1) ≤ k →
            k < (coalesceInner tri l i (i + 1)).1.length →
            ((coalesceInner tri l i (i + 1)).1.getD k default).valid = true := by
          intro k hk1 hk2
          rw [hplen] at hk2
          rw [hrest k (by omega) (Or.inr hk1)]
          exact hval k (by omega) hk2
        rw [ih (coalesceInner tri l i (i + 1)).1
          (runEnd l (l.getD i default).RegNo (i + 1)) (by omega) hnext]
        have hdropeq : (coalesceInner tri l i (i + 1)).1.drop
              (runEnd l (l.getD i default).RegNo (i + 1))
            = l.drop (runEnd l (l.getD i default).RegNo (i + 1)) :=
          drop_eq_of_pointwise l (coalesceInner tri l i (i + 1)).1
            (runEnd l (l.getD i default).RegNo (i + 1)) hplen
            (fun k hk1 hk2 => hrest k (by omega) (Or.inr hk1))
        rw [hdropeq, htake, List.filter_append, List.filter_cons, if_pos hvalid_i,
          filter_map_markInvalid, hmerge, hgi, List.append_assoc]
        rfl
      · rw [h2, if_neg hmlt]
        have hme : runEnd l (l.getD i default).RegNo (i + 1) = l.length := by omega
        have hinv : ∀ k, i + 1 ≤ k → k < (coalesceInner tri l i (i + 1)).1.length →
            ((coalesceInner tri l i (i + 1)).1.getD k default).valid = false := by
          intro k hk1 hk2
          rw [hplen] at hk2
          rw [hrun k hk1 (by omega)]
          rfl
        rw [coalesceOuter_invalid tri (coalesceInner tri l i (i + 1)).1 (i + 1) hinv]
        have htakeall : (coalesceInner tri l i (i + 1)).1.take
              (runEnd l (l.getD i default).RegNo (i + 1))
            = (coalesceInner tri l i (i + 1)).1 :=
          List.take_of_length_le (by omega)
        rw [← htakeall, htake, List.filter_append, List.filter_cons, if_pos hvalid_i,
          filter_map_markInvalid, hmerge, hgi, hme, List.drop_length, mergeRuns_nil]
    · rw [coalesceOuter_stop tri l i hi, List.drop_eq_nil_of_le (by omega),
        mergeRuns_nil, List.append_nil, List.take_of_length_le (by omega)]

theorem coalesceOuter_spec (tri : TRI) (l : List LiveOutReg)
    (hval : ∀ k, k < l.length → (l.getD k default).valid = true) :
    (coalesceOuter tri l 0).filter (fun lo => lo.valid) = mergeRuns tri l := by
  have h := coalesceOuter_spec_aux tri l.length l 0 (by omega)
    (fun k _ hk => hval k hk)
  simpa using h

/-! ## C1: run-by-run properties of mergeRuns on a sorted vector -/

theorem sorted_dropWhile_gt (x : LiveOutReg) (xs : List LiveOutReg)
    (hsort : List.Sorted liveOutLE (x :: xs)) :
    ∀ y ∈ xs.dropWhile (fun y => x.RegNo == y.RegNo), x.RegNo < y.RegNo := by
  obtain ⟨hxall, hxs⟩ := List.sorted_cons.mp hsort
  intro y hy
  cases hd : xs.dropWhile (fun y => x.RegNo == y.RegNo) with
  | nil => rw [hd] at hy; exact absurd hy (by simp)
  | cons h t =>
    have hpf : (x.RegNo == h.RegNo) = false :=
      dropWhile_head_false (fun y => x.RegNo == y.RegNo) xs h t hd
    have hne : x.RegNo ≠ h.RegNo := beq_eq_false_iff_ne.mp hpf
    have hmemh : h ∈ xs :=
      (List.dropWhile_sublist (fun y => x.RegNo == y.RegNo)).subset (by rw [hd]; simp)
    have hxh : x.RegNo < h.RegNo :=
      Nat.lt_of_le_of_ne (hxall h hmemh) hne
    have hsorted_d : List.Sorted liveOutLE (h :: t) := by
      rw [← hd]
      exact hxs.sublist (List.dropWhile_sublist (fun y : LiveOutReg => x.RegNo == y.RegNo))
    rw [hd] at hy
    rcases List.mem_cons.mp hy with hyh | hyt
    · rw [hyh]; exact hxh
    · have := (List.sorted_cons.mp hsorted_d).1 y hyt
      exact Nat.lt_of_lt_of_le hxh this

theorem takeWhile_run_facts (x : LiveOutReg) (xs : List LiveOutReg) :
    ∀ y ∈ xs.takeWhile (fun y => x.RegNo == y.RegNo), y ∈ xs ∧ y.RegNo = x.RegNo := by
  intro y hy
  refine ⟨(List.takeWhile_sublist (fun y => x.RegNo == y.RegNo)).subset hy, ?_⟩
  have hp := List.mem_takeWhile_imp hy
  exact (eq_of_beq hp).symm

theorem run_complete (x : LiveOutReg) (xs : List LiveOutReg)
    (hsort : List.Sorted liveOutLE (x :: xs)) :
    ∀ y ∈ x :: xs, y.RegNo = x.RegNo →
      y = x ∨ y ∈ xs.takeWhile (fun y => x.RegNo == y.RegNo) := by
  intro y hy hreg
  rcases List.mem_cons.mp hy with hyx | hyxs
  · exact Or.inl hyx
  · right
    have hsplit : xs.takeWhile (fun y => x.RegNo == y.RegNo)
        ++ xs.dropWhile (fun y => x.RegNo == y.RegNo) = xs := by
      apply List.takeWhile_append_dropWhile
    rw [← hsplit] at hyxs
    rcases List.mem_append.mp hyxs with hin | hin
    · exact hin
    · have := sorted_dropWhile_gt x xs hsort y hin
      omega

theorem mergeRuns_spec_aux (tri : TRI) :
    ∀ (fuel : Nat) (s : List LiveOutReg), s.length ≤ fuel →
      List.Sorted liveOutLE s →
      (∀ a b c : LiveOutReg, a ∈ s → b ∈ s → c ∈ s →
        tri.isSuperRegister a.Reg b.Reg = true → tri.isSuperRegister b.Reg c.Reg = true →
        tri.isSuperRegister a.Reg c.Reg = true) →
      (∀ a b : LiveOutReg, a ∈ s → b ∈ s → a.RegNo = b.RegNo → a.Reg ≠ b.Reg →
        tri.isSuperRegister a.Reg b.Reg = true ∨ tri.isSuperRegister b.Reg a.Reg = true) →
      List.Chain' (fun a b => a.RegNo < b.RegNo) (mergeRuns tri s) ∧
      ∀ lo ∈ mergeRuns tri s,
        (∃ y, y ∈ s ∧ y.RegNo = lo.RegNo ∧ y.Size = lo.Size) ∧
        (∀ y ∈ s, y.RegNo = lo.RegNo → y.Size ≤ lo.Size) ∧
        (∃ y, y ∈ s ∧ y.RegNo = lo.RegNo ∧ y.Reg = lo.Reg) ∧
        (∀ y ∈ s, y.RegNo = lo.RegNo → y.Reg ≠ lo.Reg →
          tri.isSuperRegister y.Reg lo.Reg = true) := by
  intro fuel
  induction fuel with
  | zero =>
    intro s h _ _ _
    have hs : s = [] := List.length_eq_zero.mp (by omega)
    rw [hs, mergeRuns_nil]
    exact ⟨List.chain'_nil, fun lo hlo => absurd hlo (by simp)⟩
  | succ n ih =>
    intro s h hsort htrans htotal
    cases s with
    | nil =>
      rw [mergeRuns_nil]
      exact ⟨List.chain'_nil, fun lo hlo => absurd hlo (by simp)⟩
    | cons x xs =>
      rw [mergeRuns_cons]
      have hrunfact := takeWhile_run_facts x xs
      have hdropgt := sorted_dropWhile_gt x xs hsort
      have hcomplete := run_complete x xs hsort
      obtain ⟨hxall, hxs_sorted⟩ := List.sorted_cons.mp hsort
      have hrest_sub : (xs.dropWhile fun y => x.RegNo == y.RegNo).Sublist xs :=
        List.dropWhile_sublist _
      have hrest_mem : ∀ y ∈ xs.dropWhile (fun y => x.RegNo == y.RegNo), y ∈ x :: xs :=
        fun y hy => List.mem_cons_of_mem x (hrest_sub.subset hy)
      have hrest_sorted : List.Sorted liveOutLE
          (xs.dropWhile fun y => x.RegNo == y.RegNo) :=
        hxs_sorted.sublist hrest_sub
      have hrest_len : (xs.dropWhile fun y => x.RegNo == y.RegNo).length ≤ n := by
        have := hrest_sub.length_le
        simp only [List.length_cons] at h
        omega
      obtain ⟨ihchain, ihelem⟩ := ih (xs.dropWhile fun y => x.RegNo == y.RegNo)
        hrest_len hrest_sorted
        (fun a b c ha hb hc => htrans a b c (hrest_mem a ha) (hrest_mem b hb) (hrest_mem c hc))
        (fun a b ha hb => htotal a b (hrest_mem a ha) (hrest_mem b hb))
      have hRmem : ∀ r, (r = x.Reg ∨
          r ∈ (xs.takeWhile fun y => x.RegNo == y.RegNo).map (fun y => y.Reg)) →
          ∃ y, y ∈ x :: xs ∧ y.RegNo = x.RegNo ∧ y.Reg = r := by
        intro r hr
        rcases hr with hr | hr
        · exact ⟨x, List.mem_cons_self x xs, rfl, hr.symm⟩
        · obtain ⟨y, hy, hyr⟩ := List.mem_map.mp hr
          obtain ⟨hyxs, hyreg⟩ := hrunfact y hy
          exact ⟨y, List.mem_cons_of_mem x hyxs, hyreg, hyr⟩
      obtain ⟨hreg_mem, hreg_sup⟩ := mergeRun_reg tri
        (x.Reg :: (xs.takeWhile fun y => x.RegNo == y.RegNo).map (fun y => y.Reg))
        (by
          intro a b c ha hb hc hab hbc
          obtain ⟨ya, hya, _, hyar⟩ := hRmem a (List.mem_cons.mp ha)
          obtain ⟨yb, hyb, _, hybr⟩ := hRmem b (List.mem_cons.mp hb)
          obtain ⟨yc, hyc, _, hycr⟩ := hRmem c (List.mem_cons.mp hc)
          rw [← hyar, ← hybr] at hab
          rw [← hybr, ← hycr] at hbc
          rw [← hyar, ← hycr]
          exact htrans ya yb yc hya hyb hyc hab hbc)
        (by
          intro a b ha hb hne
          obtain ⟨ya, hya, hyan, hyar⟩ := hRmem a (List.mem_cons.mp ha)
          obtain ⟨yb, hyb, hybn, hybr⟩ := hRmem b (List.mem_cons.mp hb)
          rw [← hyar, ← hybr] at hne ⊢
          exact htotal ya yb hya hyb (hyan.trans hybn.symm) hne)
        (xs.takeWhile fun y => x.RegNo == y.RegNo) x
        (fun r hr => by
          rcases hr with hr | hr
          · rw [hr]; exact List.mem_cons_self _ _
          · exact List.mem_cons_of_mem _ hr)
      obtain ⟨hsz_mem, hsz_x, hsz_all⟩ :=
        mergeRun_size tri (xs.takeWhile fun y => x.RegNo == y.RegNo) x
      have hlo_regno : (mergeRun tri x
          (xs.takeWhile fun y => x.RegNo == y.RegNo)).RegNo = x.RegNo :=
        mergeRun_RegNo tri _ x
      constructor
      · rw [List.chain'_cons']
        constructor
        · intro z hz
          cases hdrest : xs.dropWhile (fun y => x.RegNo == y.RegNo) with
          | nil => rw [hdrest, mergeRuns_nil] at hz; exact absurd hz (by simp)
          | cons hh tt =>
            rw [hdrest, mergeRuns_cons] at hz
            simp only [List.head?_cons, Option.mem_some_iff] at hz
            rw [← hz, hlo_regno, mergeRun_RegNo]
            exact hdropgt hh (by rw [hdrest]; exact List.mem_cons_self _ _)
        · exact ihchain
      · intro lo hlo
        rcases List.mem_cons.mp hlo with hlo | hlo
        · -- lo is the head run survivor
          subst hlo
          refine ⟨?_, ?_, ?_, ?_⟩
          · rcases hsz_mem with hm | hm
            · exact ⟨x, List.mem_cons_self x xs, hlo_regno.symm, hm.symm⟩
            · obtain ⟨y, hy, hyr⟩ := List.mem_map.mp hm
              obtain ⟨hyxs, hyreg⟩ := hrunfact y hy
              exact ⟨y, List.mem_cons_of_mem x hyxs,
                hyreg.trans hlo_regno.symm, hyr⟩
          · intro y hy hyreg
            rcases hcomplete y hy (hyreg.trans hlo_regno) with hyx | hyrun
            · rw [hyx]; exact hsz_x
            · exact hsz_all y.Size (List.mem_map.mpr ⟨y, hyrun, rfl⟩)
          · rcases hreg_mem with hm | hm
            · exact ⟨x, List.mem_cons_self x xs, hlo_regno.symm, hm.symm⟩
            · obtain ⟨y, hy, hyr⟩ := List.mem_map.mp hm
              obtain ⟨hyxs, hyreg⟩ := hrunfact y hy
              exact ⟨y, List.mem_cons_of_mem x hyxs,
                hyreg.trans hlo_regno.symm, hyr⟩
          · intro y hy hyreg hyne
            rcases hcomplete y hy (hyreg.trans hlo_regno) with hyx | hyrun
            · rw [hyx]
              exact hreg_sup x.Reg (Or.inl rfl) (hyx ▸ hyne)
            · exact hreg_sup y.Reg (Or.inr (List.mem_map.mpr ⟨y, hyrun, rfl⟩)) hyne
        · -- lo comes from a later run
          obtain ⟨hex_sz, hall_sz, hex_rg, hall_rg⟩ := ihelem lo hlo
          have hlo_gt : x.RegNo < lo.RegNo := by
            obtain ⟨y0, hy0, hy0n, -⟩ := hex_sz
            rw [← hy0n]; exact hdropgt y0 hy0
          have hmem_rest : ∀ y ∈ x :: xs, y.RegNo = lo.RegNo →
              y ∈ xs.dropWhile (fun z => x.RegNo == z.RegNo) := by
            intro y hy hyreg
            rcases List.mem_cons.mp hy with hyx | hyxs
            · exfalso; rw [hyx] at hyreg; omega
            · have hsplit : xs.takeWhile (fun z => x.RegNo == z.RegNo)
                  ++ xs.dropWhile (fun z => x.RegNo == z.RegNo) = xs := by
                apply List.takeWhile_append_dropWhile
              rw [← hsplit] at hyxs
              rcases List.mem_append.mp hyxs with hin | hin
              · exfalso
                have := (hrunfact y hin).2
                omega
              · exact hin
          refine ⟨?_, ?_, ?_, ?_⟩
          · obtain ⟨y, hy, hyn, hys⟩ := hex_sz
            exact ⟨y, hrest_mem y hy, hyn, hys⟩
          · intro y hy hyreg
            exact hall_sz y (hmem_rest y hy hyreg) hyreg
          · obtain ⟨y, hy, hyn, hys⟩ := hex_rg
            exact ⟨y, hrest_mem y hy, hyn, hys⟩
          · intro y hy hyreg hyne
            exact hall_rg y (hmem_rest y hy hyreg) hyreg hyne

theorem mergeRuns_spec (tri : TRI) (s : List LiveOutReg)
    (hsort : List.Sorted liveOutLE s)
    (htrans : ∀ a b c : LiveOutReg, a ∈ s → b ∈ s → c ∈ s →
      tri.isSuperRegister a.Reg b.Reg = true → tri.isSuperRegister b.Reg c.Reg = true →
      tri.isSuperRegister a.Reg c.Reg = true)
    (htotal : ∀ a b : LiveOutReg, a ∈ s → b ∈ s → a.RegNo = b.RegNo → a.Reg ≠ b.Reg →
      tri.isSuperRegister a.Reg b.Reg = true ∨ tri.isSuperRegister b.Reg a.Reg = true) :
    List.Chain' (fun a b => a.RegNo < b.RegNo) (mergeRuns tri s) ∧
    ∀ lo ∈ mergeRuns tri s,
      (∃ y, y ∈ s ∧ y.RegNo = lo.RegNo ∧ y.Size = lo.Size) ∧
      (∀ y ∈ s, y.RegNo = lo.RegNo → y.Size ≤ lo.Size) ∧
      (∃ y, y ∈ s ∧ y.RegNo = lo.RegNo ∧ y.Reg = lo.Reg) ∧
      (∀ y ∈ s, y.RegNo = lo.RegNo → y.Reg ≠ lo.Reg →
        tri.isSuperRegister y.Reg lo.Reg = true) :=
  mergeRuns_spec_aux tri s.length s (Nat.le_refl _) hsort htrans htotal

/-! ## C1: the live-out mask parser -/

theorem mem_liveout_candidates (tri : TRI) (Mask : List Nat) (y : LiveOutReg) :
    (y ∈ (((List.range tri.NumRegs).filter fun Reg => maskTest Mask Reg).map
        (createLiveOutReg tri)).insertionSort liveOutLE) ↔
      ∃ r, r < tri.NumRegs ∧ maskTest Mask r = true ∧ y = createLiveOutReg tri r := by
  rw [(List.perm_insertionSort liveOutLE _).mem_iff]
  simp only [List.mem_map, List.mem_filter, List.mem_range]
  constructor
  · rintro ⟨r, ⟨hr, hm⟩, hy⟩
    exact ⟨r, hr, hm, hy.symm⟩
  · rintro ⟨r, hr, hm, hy⟩
    exact ⟨r, ⟨hr, hm⟩, hy.symm⟩

/-- C1: for every register live-out mask, under a transitively and (for
mask registers sharing a DWARF number) totally ordered super-register
relation, `parseRegisterLiveOutMask` returns a sequence strictly increasing
in the DWARF register number (hence with at most one entry per DWARF
register); each surviving entry's size is the maximum spill size over all
mask registers sharing that DWARF number, and its physical register is one
of those mask registers and a super-register of every other one. -/
theorem C1_liveout_coalescing (tri : TRI) (Mask : List Nat)
    (htrans : ∀ a, a < tri.NumRegs → ∀ b, b < tri.NumRegs → ∀ c, c < tri.NumRegs →
      tri.isSuperRegister a b = true → tri.isSuperRegister b c = true →
      tri.isSuperRegister a c = true)
    (htotal : ∀ a, a < tri.NumRegs → ∀ b, b < tri.NumRegs →
      maskTest Mask a = true → maskTest Mask b = true → a ≠ b →
      getDwarfRegNum tri a = getDwarfRegNum tri b →
      tri.isSuperRegister a b = true ∨ tri.isSuperRegister b a = true) :
    List.Chain' (fun a b => a.RegNo < b.RegNo) (parseRegisterLiveOutMask tri Mask) ∧
    ∀ lo ∈ parseRegisterLiveOutMask tri Mask,
      (∃ r, r < tri.NumRegs ∧ maskTest Mask r = true ∧
        getDwarfRegNum tri r = lo.RegNo ∧ tri.classSize r = lo.Size) ∧
      (∀ r, r < tri.NumRegs → maskTest Mask r = true →
        getDwarfRegNum tri r = lo.RegNo → tri.classSize r ≤ lo.Size) ∧
      (lo.Reg < tri.NumRegs ∧ maskTest Mask lo.Reg = true ∧
        getDwarfRegNum tri lo.Reg = lo.RegNo) ∧
      (∀ r, r < tri.NumRegs → maskTest Mask r = true →
        getDwarfRegNum tri r = lo.RegNo → r ≠ lo.Reg →
        tri.isSuperRegister r lo.Reg = true) := by
  have hval : ∀ k, k < ((((List.range tri.NumRegs).filter fun Reg =>
      maskTest Mask Reg).map (createLiveOutReg tri)).insertionSort liveOutLE).length →
      (((((List.range tri.NumRegs).filter fun Reg => maskTest Mask Reg).map
        (createLiveOutReg tri)).insertionSort liveOutLE).getD k default).valid = true := by
    intro k hk
    have hmem : ((((List.range tri.NumRegs).filter fun Reg => maskTest Mask Reg).map
        (createLiveOutReg tri)).insertionSort liveOutLE).getD k default
        ∈ (((List.range tri.NumRegs).filter fun Reg => maskTest Mask Reg).map
          (createLiveOutReg tri)).insertionSort liveOutLE := by
      rw [List.getD_eq_getElem _ default hk]
      exact List.getElem_mem hk
    obtain ⟨r, -, -, hy⟩ := (mem_liveout_candidates tri Mask _).mp hmem
    rw [hy]
    rfl
  have hout : parseRegisterLiveOutMask tri Mask
      = mergeRuns tri ((((List.range tri.NumRegs).filter fun Reg =>
          maskTest Mask Reg).map (createLiveOutReg tri)).insertionSort liveOutLE) := by
    rw [parseRegisterLiveOutMask]
    exact coalesceOuter_spec tri _ hval
  have hsort : List.Sorted liveOutLE ((((List.range tri.NumRegs).filter fun Reg =>
      maskTest Mask Reg).map (createLiveOutReg tri)).insertionSort liveOutLE) :=
    List.sorted_insertionSort liveOutLE _
  obtain ⟨hchain, helem⟩ := mergeRuns_spec tri
    ((((List.range tri.NumRegs).filter fun Reg => maskTest Mask Reg).map
      (createLiveOutReg tri)).insertionSort liveOutLE) hsort
    (by
      intro a b c ha hb hc hab hbc
      obtain ⟨ra, hra, -, hya⟩ := (mem_liveout_candidates tri Mask a).mp ha
      obtain ⟨rb, hrb, -, hyb⟩ := (mem_liveout_candidates tri Mask b).mp hb
      obtain ⟨rc, hrc, -, hyc⟩ := (mem_liveout_candidates tri Mask c).mp hc
      rw [hya, hyb] at hab
      rw [hyb, hyc] at hbc
      rw [hya, hyc]
      exact htrans ra hra rb hrb rc hrc hab hbc)
    (by
      intro a b ha hb hreg hne
      obtain ⟨ra, hra, hma, hya⟩ := (mem_liveout_candidates tri Mask a).mp ha
      obtain ⟨rb, hrb, hmb, hyb⟩ := (mem_liveout_candidates tri Mask b).mp hb
      rw [hya, hyb] at hreg hne
      rw [hya, hyb]
      exact htotal ra hra rb hrb hma hmb (fun hc => hne (by rw [hc])) hreg)
  rw [hout]
  refine ⟨hchain, fun lo hlo => ?_⟩
  obtain ⟨hex_sz, hall_sz, hex_rg, hall_rg⟩ := helem lo hlo
  refine ⟨?_, ?_, ?_, ?_⟩
  · obtain ⟨y, hy, hyn, hys⟩ := hex_sz
    obtain ⟨r, hr, hm, hyc⟩ := (mem_liveout_candidates tri Mask y).mp hy
    rw [hyc] at hyn hys
    exact ⟨r, hr, hm, hyn, hys⟩
  · intro r hr hm hdw
    have hyS := (mem_liveout_candidates tri Mask (createLiveOutReg tri r)).mpr
      ⟨r, hr, hm, rfl⟩
    exact hall_sz (createLiveOutReg tri r) hyS hdw
  · obtain ⟨y, hy, hyn, hyr⟩ := hex_rg
    obtain ⟨r, hr, hm, hyc⟩ := (mem_liveout_candidates tri Mask y).mp hy
    rw [hyc] at hyn hyr
    have hrr : r = lo.Reg := hyr
    rw [← hrr]
    exact ⟨hr, hm, hyn⟩
  · intro r hr hm hdw hne
    have hyS := (mem_liveout_candidates tri Mask (createLiveOutReg tri r)).mpr
      ⟨r, hr, hm, rfl⟩
    exact hall_rg (createLiveOutReg tri r) hyS hdw hne

/-- Witness for C1 at the concrete catalog `triW` and the mask `[6]`
(registers 1 and 2 set, both carrying DWARF number 0). -/
theorem C1_witness :
    List.Chain' (fun a b => a.RegNo < b.RegNo) (parseRegisterLiveOutMask triW [6]) ∧
    ∀ lo ∈ parseRegisterLiveOutMask triW [6],
      (∃ r, r < triW.NumRegs ∧ maskTest [6] r = true ∧
        getDwarfRegNum triW r = lo.RegNo ∧ triW.classSize r = lo.Size) ∧
      (∀ r, r < triW.NumRegs → maskTest [6] r = true →
        getDwarfRegNum triW r = lo.RegNo → triW.classSize r ≤ lo.Size) ∧
      (lo.Reg < triW.NumRegs ∧ maskTest [6] lo.Reg = true ∧
        getDwarfRegNum triW lo.Reg = lo.RegNo) ∧
      (∀ r, r < triW.NumRegs → maskTest [6] r = true →
        getDwarfRegNum triW r = lo.RegNo → r ≠ lo.Reg →
        triW.isSuperRegister r lo.Reg = true) :=
  C1_liveout_coalescing triW [6] (by decide)
    (by
      intro a ha b hb
      have ha3 : a < 3 := ha
      have hb3 : b < 3 := hb
      interval_cases a <;> interval_cases b <;> decide)

end StackMapsModel
